import Mathlib

/-!
# The rbus TLV buffer (`src/rbus_buffer.c`) and element tree (`src/rbus_element.h`)

A shallow embedding of the growable byte buffer of `rbus_buffer.c` and of the
typed write and read wrappers built on it, followed by the insertion and lookup
of the element tree that `rbus_element.h` declares.

Conventions of the embedding:

* a C `int` is a natural number bounded by `INT_MAX`; an `int` computation whose
  mathematical result exceeds `INT_MAX` is undefined behaviour in C and is
  reported as such (`none` for the writers, `ReadResult.undefined` for the
  readers).  All lengths are non-negative, as a `memcpy` length must be;
* `malloc` and `realloc` always succeed; freshly allocated bytes are
  indeterminate, which is what the `none` cell stands for;
* `buff->data == buff->block1` is the flag `onHeap = false`;
* `assert` is active: a failed assertion aborts before anything is stored;
* the host byte order is a parameter `be` (`true` on a big-endian host).
-/

namespace Rbus

/-- One byte of storage, its value a natural number; `none` is a byte that was
never written. -/
abbrev Cell := Option Nat

/-- Line 27: `#define BUFFER_BLOCK_SIZE 64`. -/
def BUFFER_BLOCK_SIZE : Nat := 64

/-- Largest value of a 32-bit C `int`. -/
def INT_MAX : Nat := 2147483647

/-- The fields of `struct _rbusBuffer` that the functions use.  `data` holds the
`lenAlloc` bytes the C pointer `data` points at; `onHeap` tells whether that
pointer differs from the embedded array `block1`. -/
structure rbusBuffer where
  lenAlloc : Nat
  posWrite : Nat
  posRead : Nat
  onHeap : Bool
  data : List Cell
deriving DecidableEq, Repr

/-- Fresh storage of `n` indeterminate bytes. -/
def malloc (n : Nat) : List Cell := List.replicate n none

/-- Storage resized to `n` bytes: the old content up to `n`, then indeterminate bytes. -/
def realloc (old : List Cell) (n : Nat) : List Cell :=
  old.take n ++ List.replicate (n - old.length) none

/-- Copy `src` over the bytes of `dst` that start at offset `off`. -/
def memcpy (dst : List Cell) (off : Nat) (src : List Cell) : List Cell :=
  dst.take off ++ src ++ dst.drop (off + src.length)

/-- Lines 36-43, `rbusBuffer_Create`. -/
def rbusBuffer_Create : rbusBuffer :=
  { lenAlloc := BUFFER_BLOCK_SIZE
    posWrite := 0
    posRead := 0
    onHeap := false
    data := malloc BUFFER_BLOCK_SIZE }

/-- Lines 55-75, `rbusBuffer_Write`.  The argument `data` is the object the C
pointer points at, of which the first `len` bytes are copied; `none` is undefined
behaviour: `posWrite + len` or the new capacity does not fit in an `int`, or the
source object has fewer than `len` bytes. -/
def rbusBuffer_Write (buff : rbusBuffer) (data : List Nat) (len : Nat) : Option rbusBuffer :=
  let posNext := buff.posWrite + len
  if INT_MAX < posNext then none
  else if data.length < len then none
  else if posNext > buff.lenAlloc then
    let lenAlloc := (posNext / BUFFER_BLOCK_SIZE + 1) * BUFFER_BLOCK_SIZE
    if INT_MAX < lenAlloc then none
    else
      let store : List Cell :=
        if buff.onHeap = false then
          if buff.posWrite > 0 then
            memcpy (malloc lenAlloc) 0 (buff.data.take buff.posWrite)
          else malloc lenAlloc
        else realloc buff.data lenAlloc
      some { lenAlloc := lenAlloc
             posWrite := posNext
             posRead := buff.posRead
             onHeap := true
             data := memcpy store buff.posWrite ((data.take len).map some) }
  else
    some { buff with
             posWrite := posNext
             data := memcpy buff.data buff.posWrite ((data.take len).map some) }

/-- What a call of a reading function leads to. -/
inductive ReadResult (α : Type) where
  /-- The call returned: the buffer afterwards and what was handed to the caller. -/
  | ok (buff : rbusBuffer) (out : α)
  /-- An `assert` aborted the call; the buffer is as it was at that point. -/
  | assertFailed (buff : rbusBuffer)
  /-- An `int` computation overflowed. -/
  | undefined
deriving DecidableEq, Repr

/-- Lines 185-191, `rbusBuffer_Read`: the bytes handed to the caller are the
`len` cells that start at `posRead`. -/
def rbusBuffer_Read (buff : rbusBuffer) (len : Nat) : ReadResult (List Cell) :=
  if INT_MAX < buff.posRead + len then ReadResult.undefined
  else if buff.posRead + len < buff.lenAlloc then
    ReadResult.ok { buff with posRead := buff.posRead + len }
      ((buff.data.drop buff.posRead).take len)
  else ReadResult.assertFailed buff

/-! ## Byte order -/

/-- The `w` low-order bytes of `n`, least significant first. -/
def leBytes : Nat → Nat → List Nat
  | 0, _ => []
  | w + 1, n => n % 256 :: leBytes w (n / 256)

/-- The number whose bytes, least significant first, are `bs`. -/
def ofLeBytes : List Nat → Nat
  | [] => 0
  | b :: bs => b + 256 * ofLeBytes bs

/-- The bytes in memory of a `w`-byte unsigned integer `n` on the host. -/
def objectBytes (be : Bool) (w n : Nat) : List Nat :=
  if be then (leBytes w n).reverse else leBytes w n

/-- The unsigned integer that the bytes `bs` in memory are on the host. -/
def objectValue (be : Bool) (bs : List Nat) : Nat :=
  if be then ofLeBytes bs.reverse else ofLeBytes bs

/-- Reversal of the `w` bytes of `n` (`__bswap_16`, `__bswap_32`, `__bswap_64`). -/
def bswap (w n : Nat) : Nat := ofLeBytes (leBytes w n).reverse

/-- `htole16` of `<endian.h>`: the argument is converted to `uint16_t`. -/
def htole16 (be : Bool) (n : Nat) : Nat := if be then bswap 2 (n % 2 ^ 16) else n % 2 ^ 16

/-- `le16toh` of `<endian.h>`. -/
def le16toh (be : Bool) (n : Nat) : Nat := if be then bswap 2 (n % 2 ^ 16) else n % 2 ^ 16

/-- `htole32` of `<endian.h>`. -/
def htole32 (be : Bool) (n : Nat) : Nat := if be then bswap 4 (n % 2 ^ 32) else n % 2 ^ 32

/-- `le32toh` of `<endian.h>`. -/
def le32toh (be : Bool) (n : Nat) : Nat := if be then bswap 4 (n % 2 ^ 32) else n % 2 ^ 32

/-- `htole64` of `<endian.h>`. -/
def htole64 (be : Bool) (n : Nat) : Nat := if be then bswap 8 (n % 2 ^ 64) else n % 2 ^ 64

/-- `le64toh` of `<endian.h>`. -/
def le64toh (be : Bool) (n : Nat) : Nat := if be then bswap 8 (n % 2 ^ 64) else n % 2 ^ 64

/-- Line 29. -/
def rbusHostToLittleInt16 (be : Bool) (n : Nat) : Nat := htole16 be n

/-- Line 30. -/
def rbusLittleToHostInt16 (be : Bool) (n : Nat) : Nat := le16toh be n

/-- Line 31. -/
def rbusHostToLittleInt32 (be : Bool) (n : Nat) : Nat := htole32 be n

/-- Line 32. -/
def rbusLittleToHostInt32 (be : Bool) (n : Nat) : Nat := le32toh be n

/-- Line 33. -/
def rbusHostToLittleInt64 (be : Bool) (n : Nat) : Nat := htole64 be n

/-- Line 34. -/
def rbusLittleToHostInt64 (be : Bool) (n : Nat) : Nat := le64toh be n

/-- Conversion of a signed integer to the unsigned type of `w` bytes. -/
def toUnsigned (w : Nat) (i : Int) : Nat := (i % 2 ^ (8 * w)).toNat

/-- Conversion of an unsigned integer of `w` bytes to the signed type of `w` bytes. -/
def toSigned (w : Nat) (u : Nat) : Int :=
  if u % 2 ^ (8 * w) < 2 ^ (8 * w - 1) then ((u % 2 ^ (8 * w) : Nat) : Int)
  else ((u % 2 ^ (8 * w) : Nat) : Int) - 2 ^ (8 * w)

/-- The bytes of `cells` when every one of them was written, else `none`. -/
def initialised : List Cell → Option (List Nat)
  | [] => some []
  | none :: _ => none
  | some b :: cs => (initialised cs).map (fun bs => b :: bs)

/-! ## The type-length-value record -/

/-- Lines 77-88, `rbusBuffer_WriteTypeLengthValue`.  `length` is a `uint16_t`
parameter, so the argument is converted modulo 2^16; `value` is the object the
pointer points at. -/
def rbusBuffer_WriteTypeLengthValue (be : Bool) (buff : rbusBuffer) (type : Nat)
    (length : Nat) (value : List Nat) : Option rbusBuffer :=
  let length := length % 2 ^ 16
  let letype := rbusHostToLittleInt16 be type
  let lelength := rbusHostToLittleInt16 be length
  (rbusBuffer_Write buff (objectBytes be 2 letype) 2).bind fun b1 =>
  (rbusBuffer_Write b1 (objectBytes be 2 lelength) 2).bind fun b2 =>
  rbusBuffer_Write b2 value length

/-- The enumerators of `rbusValueType_t` that the typed writers pass on.  The
enumeration is declared in `rbus.h`, which is not among the sources, so the
numeric values are a parameter of the embedding. -/
structure rbusValueType where
  RBUS_STRING : Nat
  RBUS_INT8 : Nat
  RBUS_UINT8 : Nat
  RBUS_INT16 : Nat
  RBUS_UINT16 : Nat
  RBUS_INT32 : Nat
  RBUS_UINT32 : Nat
  RBUS_INT64 : Nat
  RBUS_UINT64 : Nat
  RBUS_SINGLE : Nat
  RBUS_DOUBLE : Nat
  RBUS_DATETIME : Nat
  RBUS_BYTES : Nat
deriving DecidableEq, Repr

/-- Lines 90-94, `rbusBuffer_WriteStringTLV`: `s` is the character array,
`len` the `int` handed on as the `uint16_t` length. -/
def rbusBuffer_WriteStringTLV (be : Bool) (ty : rbusValueType) (buff : rbusBuffer)
    (s : List Nat) (len : Nat) : Option rbusBuffer :=
  rbusBuffer_WriteTypeLengthValue be buff ty.RBUS_STRING len s

/-- Lines 114-117, `rbusBuffer_WriteInt8TLV`. -/
def rbusBuffer_WriteInt8TLV (be : Bool) (ty : rbusValueType) (buff : rbusBuffer)
    (i8 : Int) : Option rbusBuffer :=
  rbusBuffer_WriteTypeLengthValue be buff ty.RBUS_INT8 1 (objectBytes be 1 (toUnsigned 1 i8))

/-- Lines 119-122, `rbusBuffer_WriteUInt8TLV`. -/
def rbusBuffer_WriteUInt8TLV (be : Bool) (ty : rbusValueType) (buff : rbusBuffer)
    (u8 : Nat) : Option rbusBuffer :=
  rbusBuffer_WriteTypeLengthValue be buff ty.RBUS_UINT8 1 (objectBytes be 1 (u8 % 2 ^ 8))

/-- Lines 124-128, `rbusBuffer_WriteInt16TLV`: the argument of the conversion
macro becomes unsigned, its result is stored in the signed `temp`. -/
def rbusBuffer_WriteInt16TLV (be : Bool) (ty : rbusValueType) (buff : rbusBuffer)
    (i16 : Int) : Option rbusBuffer :=
  let temp : Int := toSigned 2 (rbusHostToLittleInt16 be (toUnsigned 2 i16))
  rbusBuffer_WriteTypeLengthValue be buff ty.RBUS_INT16 2 (objectBytes be 2 (toUnsigned 2 temp))

/-- Lines 130-134, `rbusBuffer_WriteUInt16TLV`. -/
def rbusBuffer_WriteUInt16TLV (be : Bool) (ty : rbusValueType) (buff : rbusBuffer)
    (u16 : Nat) : Option rbusBuffer :=
  let temp : Nat := rbusHostToLittleInt16 be (u16 % 2 ^ 16)
  rbusBuffer_WriteTypeLengthValue be buff ty.RBUS_UINT16 2 (objectBytes be 2 temp)

/-- Lines 136-140, `rbusBuffer_WriteInt32TLV`. -/
def rbusBuffer_WriteInt32TLV (be : Bool) (ty : rbusValueType) (buff : rbusBuffer)
    (i32 : Int) : Option rbusBuffer :=
  let temp : Int := toSigned 4 (rbusHostToLittleInt32 be (toUnsigned 4 i32))
  rbusBuffer_WriteTypeLengthValue be buff ty.RBUS_INT32 4 (objectBytes be 4 (toUnsigned 4 temp))

/-- Lines 142-146, `rbusBuffer_WriteUInt32TLV`. -/
def rbusBuffer_WriteUInt32TLV (be : Bool) (ty : rbusValueType) (buff : rbusBuffer)
    (u32 : Nat) : Option rbusBuffer :=
  let temp : Nat := rbusHostToLittleInt32 be (u32 % 2 ^ 32)
  rbusBuffer_WriteTypeLengthValue be buff ty.RBUS_UINT32 4 (objectBytes be 4 temp)

/-- Lines 148-152, `rbusBuffer_WriteInt64TLV`. -/
def rbusBuffer_WriteInt64TLV (be : Bool) (ty : rbusValueType) (buff : rbusBuffer)
    (i64 : Int) : Option rbusBuffer :=
  let temp : Int := toSigned 8 (rbusHostToLittleInt64 be (toUnsigned 8 i64))
  rbusBuffer_WriteTypeLengthValue be buff ty.RBUS_INT64 8 (objectBytes be 8 (toUnsigned 8 temp))

/-- Lines 154-158, `rbusBuffer_WriteUInt64TLV`. -/
def rbusBuffer_WriteUInt64TLV (be : Bool) (ty : rbusValueType) (buff : rbusBuffer)
    (u64 : Nat) : Option rbusBuffer :=
  let temp : Nat := rbusHostToLittleInt64 be (u64 % 2 ^ 64)
  rbusBuffer_WriteTypeLengthValue be buff ty.RBUS_UINT64 8 (objectBytes be 8 temp)

/-! ## Floating-point values

A `float` or `double` is given by its bits, the IEEE-754 binary32 or binary64
encoding; in memory these bits are stored like an unsigned integer of the same
size.  The C conversions between floating and integer types convert the value. -/

/-- An IEEE-754 binary format: the number of fraction bits and of exponent bits. -/
structure FloatFormat where
  frac : Nat
  expo : Nat
deriving DecidableEq, Repr

/-- The format of `float`. -/
def binary32 : FloatFormat := { frac := 23, expo := 8 }

/-- The format of `double`. -/
def binary64 : FloatFormat := { frac := 52, expo := 11 }

/-- The exponent bias of a format. -/
def FloatFormat.bias (f : FloatFormat) : Nat := 2 ^ (f.expo - 1) - 1

/-- The cast of a floating value to an unsigned integer type of `width` bits:
the fractional part is discarded; `none` where C leaves the conversion
undefined (infinity, NaN, or a truncated value that the type cannot hold). -/
def floatToUnsigned (f : FloatFormat) (width : Nat) (bits : Nat) : Option Nat :=
  let sign := bits / 2 ^ (f.frac + f.expo) % 2
  let e := bits / 2 ^ f.frac % 2 ^ f.expo
  let m := bits % 2 ^ f.frac
  if e = 2 ^ f.expo - 1 then none
  else
    let sig := if e = 0 then m else 2 ^ f.frac + m
    let ex := if e = 0 then 1 else e
    let mag :=
      if f.bias + f.frac ≤ ex then sig * 2 ^ (ex - (f.bias + f.frac))
      else sig / 2 ^ (f.bias + f.frac - ex)
    if mag = 0 then some 0
    else if sign = 1 then none
    else if mag < 2 ^ width then some mag
    else none

/-- Position of the highest set bit of `n`, for `n` below `2 ^ fuel`. -/
def highBit : Nat → Nat → Nat
  | 0, _ => 0
  | fuel + 1, n => if n < 2 then 0 else 1 + highBit fuel (n / 2)

/-- The cast of an unsigned integer of at most 64 bits to a floating type,
rounding to nearest with ties to even. -/
def unsignedToFloat (f : FloatFormat) (n : Nat) : Nat :=
  if n = 0 then 0
  else
    let k := highBit 64 n
    if k ≤ f.frac then (f.bias + k) * 2 ^ f.frac + (n * 2 ^ (f.frac - k) - 2 ^ f.frac)
    else
      let sh := k - f.frac
      let q := n / 2 ^ sh
      let r := n % 2 ^ sh
      let half := 2 ^ (sh - 1)
      let q2 := if half < r ∨ (r = half ∧ q % 2 = 1) then q + 1 else q
      (f.bias + k) * 2 ^ f.frac + (q2 - 2 ^ f.frac)

/-- Lines 160-164, `rbusBuffer_WriteSingleTLV`: the `float` argument of the
conversion macro becomes a `uint32_t`, and the result becomes the `float`
`temp`. -/
def rbusBuffer_WriteSingleTLV (be : Bool) (ty : rbusValueType) (buff : rbusBuffer)
    (f32 : Nat) : Option rbusBuffer :=
  match floatToUnsigned binary32 32 f32 with
  | none => none
  | some u =>
    let temp : Nat := unsignedToFloat binary32 (rbusHostToLittleInt32 be u)
    rbusBuffer_WriteTypeLengthValue be buff ty.RBUS_SINGLE 4 (objectBytes be 4 temp)

/-- Lines 166-170, `rbusBuffer_WriteDoubleTLV`, with its casts to `uint64_t`
and back to `double`. -/
def rbusBuffer_WriteDoubleTLV (be : Bool) (ty : rbusValueType) (buff : rbusBuffer)
    (f64 : Nat) : Option rbusBuffer :=
  match floatToUnsigned binary64 64 f64 with
  | none => none
  | some u =>
    let temp : Nat := unsignedToFloat binary64 (rbusHostToLittleInt64 be u)
    rbusBuffer_WriteTypeLengthValue be buff ty.RBUS_DOUBLE 8 (objectBytes be 8 temp)

/-- Lines 180-183, `rbusBuffer_WriteBytesTLV`: `bytes` is the array, `len` the
`int` handed on as the `uint16_t` length. -/
def rbusBuffer_WriteBytesTLV (be : Bool) (ty : rbusValueType) (buff : rbusBuffer)
    (bytes : List Nat) (len : Nat) : Option rbusBuffer :=
  rbusBuffer_WriteTypeLengthValue be buff ty.RBUS_BYTES len bytes

/-- Lines 45-53, `rbusBuffer_Destroy`: `true` when the call runs to its end,
`false` when the assertion on line 49 fails. -/
def rbusBuffer_Destroy (buff : rbusBuffer) : Bool :=
  if buff.onHeap then decide (buff.lenAlloc > BUFFER_BLOCK_SIZE) else true

/-! ## The typed readers -/

/-- Hand the bytes of a finished `rbusBuffer_Read` to a decoder; a value built
from bytes that were never written is indeterminate (`none`). -/
def readThen {α : Type} (r : ReadResult (List Cell)) (f : List Nat → α) :
    ReadResult (Option α) :=
  match r with
  | ReadResult.ok b out => ReadResult.ok b ((initialised out).map f)
  | ReadResult.assertFailed b => ReadResult.assertFailed b
  | ReadResult.undefined => ReadResult.undefined

/-- Lines 193-198, `rbusBuffer_ReadString`: the reported length is `posRead`,
the string is an allocation of `posRead + 1` bytes of which the first `posRead`
are filled by the read. -/
def rbusBuffer_ReadString (buff : rbusBuffer) : ReadResult (List Cell × Nat) :=
  let len := buff.posRead
  if INT_MAX < buff.posRead + 1 then ReadResult.undefined
  else
    let s := malloc (buff.posRead + 1)
    match rbusBuffer_Read buff len with
    | ReadResult.ok b out => ReadResult.ok b (memcpy s 0 out, len)
    | ReadResult.assertFailed b => ReadResult.assertFailed b
    | ReadResult.undefined => ReadResult.undefined

/-- Lines 218-221, `rbusBuffer_ReadInt8`. -/
def rbusBuffer_ReadInt8 (be : Bool) (buff : rbusBuffer) : ReadResult (Option Int) :=
  readThen (rbusBuffer_Read buff 1) fun bs => toSigned 1 (objectValue be bs)

/-- Lines 223-226, `rbusBuffer_ReadUInt8`. -/
def rbusBuffer_ReadUInt8 (be : Bool) (buff : rbusBuffer) : ReadResult (Option Nat) :=
  readThen (rbusBuffer_Read buff 1) fun bs => objectValue be bs

/-- Lines 228-233, `rbusBuffer_ReadInt16`. -/
def rbusBuffer_ReadInt16 (be : Bool) (buff : rbusBuffer) : ReadResult (Option Int) :=
  readThen (rbusBuffer_Read buff 2) fun bs =>
    let temp : Int := toSigned 2 (objectValue be bs)
    toSigned 2 (rbusLittleToHostInt16 be (toUnsigned 2 temp))

/-- Lines 235-240, `rbusBuffer_ReadUInt16`. -/
def rbusBuffer_ReadUInt16 (be : Bool) (buff : rbusBuffer) : ReadResult (Option Nat) :=
  readThen (rbusBuffer_Read buff 2) fun bs =>
    let temp : Nat := objectValue be bs
    rbusLittleToHostInt16 be temp

/-- Lines 242-247, `rbusBuffer_ReadInt32`. -/
def rbusBuffer_ReadInt32 (be : Bool) (buff : rbusBuffer) : ReadResult (Option Int) :=
  readThen (rbusBuffer_Read buff 4) fun bs =>
    let temp : Int := toSigned 4 (objectValue be bs)
    toSigned 4 (rbusLittleToHostInt32 be (toUnsigned 4 temp))

/-- Lines 249-254, `rbusBuffer_ReadUInt32`. -/
def rbusBuffer_ReadUInt32 (be : Bool) (buff : rbusBuffer) : ReadResult (Option Nat) :=
  readThen (rbusBuffer_Read buff 4) fun bs =>
    let temp : Nat := objectValue be bs
    rbusLittleToHostInt32 be temp

/-- Lines 256-261, `rbusBuffer_ReadInt64`. -/
def rbusBuffer_ReadInt64 (be : Bool) (buff : rbusBuffer) : ReadResult (Option Int) :=
  readThen (rbusBuffer_Read buff 8) fun bs =>
    let temp : Int := toSigned 8 (objectValue be bs)
    toSigned 8 (rbusLittleToHostInt64 be (toUnsigned 8 temp))

/-- Lines 263-268, `rbusBuffer_ReadUInt64`. -/
def rbusBuffer_ReadUInt64 (be : Bool) (buff : rbusBuffer) : ReadResult (Option Nat) :=
  readThen (rbusBuffer_Read buff 8) fun bs =>
    let temp : Nat := objectValue be bs
    rbusLittleToHostInt64 be temp

/-- Hand the bytes of a finished `rbusBuffer_Read` to a decoder that may be
undefined. -/
def readThenCast (r : ReadResult (List Cell)) (f : List Nat → Option Nat) :
    ReadResult (Option Nat) :=
  match r with
  | ReadResult.ok b out =>
    match initialised out with
    | none => ReadResult.ok b none
    | some bs =>
      match f bs with
      | none => ReadResult.undefined
      | some v => ReadResult.ok b (some v)
  | ReadResult.assertFailed b => ReadResult.assertFailed b
  | ReadResult.undefined => ReadResult.undefined

/-- Lines 270-275, `rbusBuffer_ReadSingle`: the `float` read from the buffer
becomes a `uint32_t` as the argument of the conversion macro, and the result
becomes the `float` handed back. -/
def rbusBuffer_ReadSingle (be : Bool) (buff : rbusBuffer) : ReadResult (Option Nat) :=
  readThenCast (rbusBuffer_Read buff 4) fun bs =>
    let temp : Nat := objectValue be bs
    (floatToUnsigned binary32 32 temp).map fun u =>
      unsignedToFloat binary32 (rbusLittleToHostInt32 be u)

/-- Lines 277-282, `rbusBuffer_ReadDouble`, with its casts to `uint64_t` and
back to `double`. -/
def rbusBuffer_ReadDouble (be : Bool) (buff : rbusBuffer) : ReadResult (Option Nat) :=
  readThenCast (rbusBuffer_Read buff 8) fun bs =>
    let temp : Nat := objectValue be bs
    (floatToUnsigned binary64 64 temp).map fun u =>
      unsignedToFloat binary64 (rbusLittleToHostInt64 be u)

/-- Size of a pointer object on the LP64 hosts. -/
def POINTER_SIZE : Nat := 8

/-- What `rbusBuffer_ReadBytes` leaves with its caller: the length stored in
`*len`, the content of the allocation that `malloc` returned, and the bytes that
the read stored over the caller's pointer variable. -/
structure readBytesOut where
  len : Nat
  block : List Cell
  pointer : List Cell
deriving DecidableEq, Repr

/-- Lines 292-297, `rbusBuffer_ReadBytes`: the reported length and the size of
the allocation are `posWrite`; the destination handed to `rbusBuffer_Read` is
`bytes`, the address of the caller's pointer variable, not the allocation
`*bytes`, so the allocation stays as `malloc` left it.  Copying more bytes than
a pointer holds runs past that variable and is undefined. -/
def rbusBuffer_ReadBytes (buff : rbusBuffer) : ReadResult readBytesOut :=
  let len := buff.posWrite
  let block := malloc buff.posWrite
  match rbusBuffer_Read buff buff.posWrite with
  | ReadResult.ok b out =>
    if POINTER_SIZE < buff.posWrite then ReadResult.undefined
    else ReadResult.ok b { len := len, block := block, pointer := out }
  | ReadResult.assertFailed b => ReadResult.assertFailed b
  | ReadResult.undefined => ReadResult.undefined

/-! ## Calling sequences -/

/-- Storage of `lenAlloc` bytes with the write position inside it. -/
def Wf (b : rbusBuffer) : Prop := b.data.length = b.lenAlloc ∧ b.posWrite ≤ b.lenAlloc

/-- The capacity that lines 59-61 leave behind for a write ending at `posNext`. -/
def capacityAfter (lenAlloc posNext : Nat) : Nat :=
  if posNext > lenAlloc then (posNext / BUFFER_BLOCK_SIZE + 1) * BUFFER_BLOCK_SIZE else lenAlloc

/-- One call on a buffer.  Every typed writer is a `writeTLV` call and every
typed reader performs one `read` of some length. -/
inductive Op where
  | write (data : List Nat) (len : Nat)
  | writeTLV (be : Bool) (type length : Nat) (value : List Nat)
  | read (len : Nat)
deriving DecidableEq, Repr

/-- The buffer after one call that returns; `none` when it does not return. -/
def step (b : rbusBuffer) : Op → Option rbusBuffer
  | Op.write d len => rbusBuffer_Write b d len
  | Op.writeTLV be t n v => rbusBuffer_WriteTypeLengthValue be b t n v
  | Op.read len =>
    match rbusBuffer_Read b len with
    | ReadResult.ok b2 _ => some b2
    | ReadResult.assertFailed _ => none
    | ReadResult.undefined => none

/-- The buffer after a sequence of calls that all return. -/
def run : rbusBuffer → List Op → Option rbusBuffer
  | b, [] => some b
  | b, op :: ops => (step b op).bind fun b2 => run b2 ops

/-- A buffer state that some sequence of returning calls produces from
`rbusBuffer_Create`. -/
def Reachable (b : rbusBuffer) : Prop := ∃ ops, run rbusBuffer_Create ops = some b

/-- Number of bytes a call asks to append. -/
def Op.written : Op → Nat
  | Op.write _ len => len
  | Op.writeTLV _ _ n _ => 4 + n % 2 ^ 16
  | Op.read _ => 0

/-- Total number of bytes a sequence of calls asks to append. -/
def bytesWritten : List Op → Nat
  | [] => 0
  | op :: ops => op.written + bytesWritten ops

/-- What holds of the fields in every reachable state. -/
structure Inv (b : rbusBuffer) : Prop where
  hlen : b.data.length = b.lenAlloc
  hw : b.posWrite ≤ b.lenAlloc
  hr : b.posRead < b.lenAlloc
  hmax : b.lenAlloc ≤ INT_MAX
  hblock : b.lenAlloc % BUFFER_BLOCK_SIZE = 0
  hemb : b.onHeap = false → b.lenAlloc = BUFFER_BLOCK_SIZE
  hheap : b.onHeap = true → BUFFER_BLOCK_SIZE < b.lenAlloc ∧ BUFFER_BLOCK_SIZE < b.posWrite

/-- Enumerator values used where a statement is instantiated at a concrete input. -/
def sampleTypes : rbusValueType :=
  { RBUS_STRING := 0x50e, RBUS_INT8 := 0x503, RBUS_UINT8 := 0x504, RBUS_INT16 := 0x505
    RBUS_UINT16 := 0x506, RBUS_INT32 := 0x507, RBUS_UINT32 := 0x508, RBUS_INT64 := 0x509
    RBUS_UINT64 := 0x50a, RBUS_SINGLE := 0x50b, RBUS_DOUBLE := 0x50c
    RBUS_DATETIME := 0x50d, RBUS_BYTES := 0x50f }

/-- The value `v` comes back when the record that the write `w` left in a buffer
is read by skipping the four header bytes with `rbusBuffer_Read` and then
calling the typed reader `rd`. -/
def DecodesAfterHeader {α : Type} (w : Option rbusBuffer)
    (rd : rbusBuffer → ReadResult (Option α)) (v : α) : Prop :=
  ∃ b1 b2 hdr b3, w = some b1 ∧ rbusBuffer_Read b1 4 = ReadResult.ok b2 hdr ∧
    rd b2 = ReadResult.ok b3 (some v)

/-- Every enumerator fits in the two bytes that the record has for the type tag. -/
def TagsFit (ty : rbusValueType) : Prop :=
  ty.RBUS_STRING < 2 ^ 16 ∧ ty.RBUS_INT8 < 2 ^ 16 ∧ ty.RBUS_UINT8 < 2 ^ 16 ∧
    ty.RBUS_INT16 < 2 ^ 16 ∧ ty.RBUS_UINT16 < 2 ^ 16 ∧ ty.RBUS_INT32 < 2 ^ 16 ∧
    ty.RBUS_UINT32 < 2 ^ 16 ∧ ty.RBUS_INT64 < 2 ^ 16 ∧ ty.RBUS_UINT64 < 2 ^ 16 ∧
    ty.RBUS_DATETIME < 2 ^ 16 ∧ ty.RBUS_BYTES < 2 ^ 16

/-- The value `v` comes back when the record that the write `w` left in a buffer
is read in full: `rbusBuffer_ReadUInt16` returns `tag`, a second
`rbusBuffer_ReadUInt16` returns `size`, the typed reader `rd` returns `v`, and
then the read position has reached the write position. -/
def DecodesRecord {α : Type} (be : Bool) (w : Option rbusBuffer)
    (rd : rbusBuffer → ReadResult (Option α)) (tag size : Nat) (v : α) : Prop :=
  ∃ b1 b2 b3 b4, w = some b1 ∧
    rbusBuffer_ReadUInt16 be b1 = ReadResult.ok b2 (some tag) ∧
    rbusBuffer_ReadUInt16 be b2 = ReadResult.ok b3 (some size) ∧
    rd b3 = ReadResult.ok b4 (some v) ∧ b4.posRead = b4.posWrite

/-! ## The element tree (`src/rbus_element.h`)

The header declares `struct elementNode`, `insertElement` and `retrieveElement`;
the functions are defined outside the sources.  A C string is the list of its
characters. -/

/-- Modelled from the spec: the tag of a node, `rbusElementType_t`, which is
declared in `rbus.h`, not among the sources.  The data model lists object,
parameter, table, table row, event and method; line 47 of the header notes that
object is 0. -/
inductive rbusElementType where
  | object
  | parameter
  | table
  | tableRow
  | event
  | method
deriving DecidableEq, Repr

/-- Modelled from the spec: the node types that hold further nodes.  An object
is a container of the namespace, a table holds its rows and a row holds the
copy of the table's template; a parameter, an event and a method hold none. -/
def rbusElementType.isContainer : rbusElementType → Bool
  | rbusElementType.object => true
  | rbusElementType.table => true
  | rbusElementType.tableRow => true
  | rbusElementType.parameter => false
  | rbusElementType.event => false
  | rbusElementType.method => false

/-- The fields of `struct elementNode` that insertion and lookup use: `name`,
`fullName`, `type` and the two owning links `child` and `nextSibling`; `null` is
the `NULL` pointer. -/
inductive elementNode where
  | null
  | node (name fullName : List Char) (type : rbusElementType)
      (child nextSibling : elementNode)
deriving DecidableEq, Repr

/-- The name and the type of an `rbusDataElement_t`, the element handed to
`insertElement`. -/
structure rbusDataElement where
  name : List Char
  type : rbusElementType
deriving DecidableEq, Repr

/-- The field `fullName` behind a node pointer. -/
def fullNameOf : elementNode → List Char
  | elementNode.null => []
  | elementNode.node _ fn _ _ _ => fn

/-- The segments of a dotted path after the segment `cur` read so far; dots
separate segments and an empty segment is none. -/
def tokensFrom : List Char → List Char → List (List Char)
  | [], cur => if cur = [] then [] else [cur]
  | c :: cs, cur =>
    if c = '.' then (if cur = [] then tokensFrom cs [] else cur :: tokensFrom cs [])
    else tokensFrom cs (cur ++ [c])

/-- The segments of a dotted path. -/
def tokens (path : List Char) : List (List Char) := tokensFrom path []

/-- The dotted path of a list of segments: the segments joined by the separator. -/
def dotted : List (List Char) → List Char
  | [] => []
  | [t] => t
  | t :: ts => t ++ '.' :: dotted ts

/-- The first node of a sibling chain whose name is `seg`, or `null`. -/
def findSibling (seg : List Char) : elementNode → elementNode
  | elementNode.null => elementNode.null
  | elementNode.node nm fn ty ch sib =>
    if nm = seg then elementNode.node nm fn ty ch sib else findSibling seg sib

/-- Modelled from the spec: the sibling step of `insertElement`, whose
definition is outside the sources.  Siblings are searched by name equality.  A
found node is the leaf to return when `isLeaf`; else insertion goes on below it
(`descend`) when it is a container, and is rejected without mutation when it is
not: inserting over a non-container node is a structural conflict.  When no
sibling has the name a node is created at the end of the chain, an object
unless it is the leaf.  Returns the new chain and the node inserted or found,
`null` for a rejected insertion. -/
def insertSibling (seg fullName : List Char) (isLeaf : Bool) (type : rbusElementType)
    (descend : elementNode → elementNode × elementNode) :
    elementNode → elementNode × elementNode
  | elementNode.null =>
    let sub := descend elementNode.null
    let n := elementNode.node seg fullName (if isLeaf then type else rbusElementType.object)
      sub.1 elementNode.null
    (n, if isLeaf then n else sub.2)
  | elementNode.node nm fn ty ch sib =>
    if nm = seg then
      if isLeaf then (elementNode.node nm fn ty ch sib, elementNode.node nm fn ty ch sib)
      else if ty.isContainer then
        let sub := descend ch
        (elementNode.node nm fn ty sub.1 sib, sub.2)
      else (elementNode.node nm fn ty ch sib, elementNode.null)
    else
      let r := insertSibling seg fullName isLeaf type descend sib
      (elementNode.node nm fn ty ch r.1, r.2)

/-- Modelled from the spec: the walk of `insertElement` along the segments of
the path, below a sibling chain whose parent has the segments `pre`: it walks or
creates the intermediate containers and inserts or finds the leaf; a created
node gets the full name of its ancestors' names and its own joined by the
separator.  The node returned is `null` for an empty path and for a rejected
insertion. -/
def insertChain (type : rbusElementType) : List (List Char) → List (List Char) → elementNode →
    elementNode × elementNode
  | [], _, chain => (chain, elementNode.null)
  | seg :: rest, pre, chain =>
    insertSibling seg (dotted (pre ++ [seg])) rest.isEmpty type
      (fun ch => insertChain type rest (pre ++ [seg]) ch) chain

/-- Modelled from the spec: `insertElement(root, elem)`, declared on line 59 of
`rbus_element.h` and defined outside the sources: given the dotted path and the
type of the element it walks or creates the intermediate container nodes along
the path below `root` and inserts, or finds, the leaf; an insertion that would
go below a node that is not a container is rejected and leaves the tree as it
is.  Returns the tree afterwards and the inserted or found node, `null` when
there is none. -/
def insertElement (root : elementNode) (elem : rbusDataElement) : elementNode × elementNode :=
  match root with
  | elementNode.null => (elementNode.null, elementNode.null)
  | elementNode.node nm fn ty ch sib =>
    let r := insertChain elem.type (tokens elem.name) [] ch
    (elementNode.node nm fn ty r.1 sib, r.2)

/-- Modelled from the spec: the descent of `retrieveElement` component by
component: each segment is looked up among the siblings by name, the node of
the last segment is the result, `null` the not-found result. -/
def retrieveChain : List (List Char) → elementNode → elementNode
  | [], _ => elementNode.null
  | seg :: rest, chain =>
    match findSibling seg chain with
    | elementNode.null => elementNode.null
    | elementNode.node nm fn ty ch sib =>
      if rest.isEmpty then elementNode.node nm fn ty ch sib else retrieveChain rest ch

/-- Modelled from the spec: `retrieveElement(root, name)`, declared on line 61
of `rbus_element.h` and defined outside the sources: exact dotted-path lookup
below `root`; returns the node or `null`. -/
def retrieveElement (root : elementNode) (name : List Char) : elementNode :=
  match root with
  | elementNode.null => elementNode.null
  | elementNode.node _ _ _ ch _ => retrieveChain (tokens name) ch

/-- The data-model invariant on full names, for a sibling chain whose parent has
the segments `pre`: the full name of every node is its ancestors' names and its
own joined by the separator. -/
def WellNamed : elementNode → List (List Char) → Prop
  | elementNode.null, _ => True
  | elementNode.node nm fn _ ch sib, pre =>
    fn = dotted (pre ++ [nm]) ∧ WellNamed ch (pre ++ [nm]) ∧ WellNamed sib pre

/-- A tree with a root node below which the full names are as the data model
requires. -/
def WellNamedRoot : elementNode → Prop
  | elementNode.null => False
  | elementNode.node _ _ _ ch _ => WellNamed ch []

/-- The segments `p` are the first segments of `q`: the path of `p` is `q` or
leads to a node above `q`. -/
def InitialPart (p q : List (List Char)) : Prop := ∃ r, q = p ++ r

/-- A node below which `insertElement` does not insert: one that exists and is
not a container. -/
def blocksDescent : elementNode → Bool
  | elementNode.null => false
  | elementNode.node _ _ ty _ _ => !ty.isContainer

/-- No node on the way to the last of the segments `segs`, below the sibling
chain `chain`, blocks the descent. -/
def Passable (segs : List (List Char)) (chain : elementNode) : Prop :=
  ∀ q r, segs = q ++ r → r ≠ [] → blocksDescent (retrieveChain q chain) = false

/-- The tree after inserting a list of elements one after the other. -/
def insertAll (root : elementNode) : List rbusDataElement → elementNode
  | [] => root
  | e :: es => insertAll (insertElement root e).1 es

/-- A tree that holds only a root node. -/
def emptyRoot (name : List Char) : elementNode :=
  elementNode.node name name rbusElementType.object elementNode.null elementNode.null

/-- The buffer after 65 bytes of value 7 were written to a fresh buffer: the
storage has moved to the heap, with a capacity of two blocks. -/
def afterWrite65 : rbusBuffer :=
  { lenAlloc := 128, posWrite := 65, posRead := 0, onHeap := true
    data := List.replicate 65 (some 7) ++ List.replicate 63 none }

/-! ## Storage lemmas -/

theorem memcpy_length (dst src : List Cell) (off : Nat) (h : off + src.length ≤ dst.length) :
    (memcpy dst off src).length = dst.length := by
  simp only [memcpy, List.length_append, List.length_take, List.length_drop]
  omega

theorem memcpy_take (dst src : List Cell) (off : Nat) (h : off ≤ dst.length) :
    (memcpy dst off src).take (off + src.length) = dst.take off ++ src := by
  unfold memcpy
  apply List.take_left'
  simp only [List.length_append, List.length_take]
  omega

theorem write_some (b : rbusBuffer) (d : List Nat) (len : Nat) (hwf : Wf b)
    (hlen : len ≤ d.length) (hpos : b.posWrite + len ≤ INT_MAX)
    (hcap : capacityAfter b.lenAlloc (b.posWrite + len) ≤ INT_MAX) :
    ∃ b2, rbusBuffer_Write b d len = some b2 ∧
      b2.posWrite = b.posWrite + len ∧ b2.posRead = b.posRead ∧
      b2.lenAlloc = capacityAfter b.lenAlloc (b.posWrite + len) ∧
      b2.onHeap = (b.onHeap || decide (b.posWrite + len > b.lenAlloc)) ∧
      b2.data.length = b2.lenAlloc ∧
      b2.data.take (b.posWrite + len) = b.data.take b.posWrite ++ (d.take len).map some := by
  obtain ⟨hdl, hpw⟩ := hwf
  have hsrc : ((d.take len).map some).length = len := by
    simp only [List.length_map, List.length_take]; omega
  unfold rbusBuffer_Write
  simp only [capacityAfter] at hcap ⊢
  rw [if_neg (by omega), if_neg (by omega)]
  by_cases hg : b.posWrite + len > b.lenAlloc
  · rw [if_pos hg] at hcap ⊢
    rw [if_pos hg, if_neg (by omega)]
    have hL : b.posWrite + len < (b.posWrite + len) / BUFFER_BLOCK_SIZE * BUFFER_BLOCK_SIZE + BUFFER_BLOCK_SIZE := by
      unfold BUFFER_BLOCK_SIZE; omega
    have hL2 : ((b.posWrite + len) / BUFFER_BLOCK_SIZE + 1) * BUFFER_BLOCK_SIZE = (b.posWrite + len) / BUFFER_BLOCK_SIZE * BUFFER_BLOCK_SIZE + BUFFER_BLOCK_SIZE := by ring
    generalize hLe : ((b.posWrite + len) / BUFFER_BLOCK_SIZE + 1) * BUFFER_BLOCK_SIZE = L at *
    have hstore : ∀ store : List Cell, store.length = L →
        store.take b.posWrite = b.data.take b.posWrite →
        (memcpy store b.posWrite ((d.take len).map some)).length = L ∧
        (memcpy store b.posWrite ((d.take len).map some)).take (b.posWrite + len)
          = b.data.take b.posWrite ++ (d.take len).map some := by
      intro store h1 h2
      constructor
      · rw [memcpy_length _ _ _ (by omega), h1]
      · have := memcpy_take store ((d.take len).map some) b.posWrite (by omega)
        rw [hsrc, h2] at this
        exact this
    have hst : ∃ store : List Cell, store.length = L ∧
        store.take b.posWrite = b.data.take b.posWrite ∧
        store = (if b.onHeap = false then
          if b.posWrite > 0 then memcpy (malloc L) 0 (b.data.take b.posWrite) else malloc L
          else realloc b.data L) := by
      refine ⟨_, ?_, ?_, rfl⟩
      · split
        · split
          · rw [memcpy_length]
            · simp [malloc]
            · simp only [malloc, List.length_take, List.length_replicate]; omega
          · simp [malloc]
        · simp only [realloc, List.length_append, List.length_take, List.length_replicate]; omega
      · split
        · split
          · have := memcpy_take (malloc L) (b.data.take b.posWrite) 0 (by omega)
            simp only [List.take_zero, List.nil_append, Nat.zero_add, List.length_take] at this
            rw [Nat.min_eq_left (by omega)] at this
            exact this
          · have h0 : b.posWrite = 0 := by omega
            simp [h0]
        · unfold realloc
          rw [List.take_of_length_le (by omega : b.data.length ≤ L)]
          rw [List.take_append_of_le_length (by omega)]
    obtain ⟨store, hs1, hs2, hs3⟩ := hst
    rw [← hs3]
    obtain ⟨r1, r2⟩ := hstore store hs1 hs2
    exact ⟨_, rfl, rfl, rfl, rfl, by simp [hg], r1, r2⟩
  · rw [if_neg hg] at hcap ⊢
    rw [if_neg hg]
    refine ⟨_, rfl, rfl, rfl, rfl, by simp [hg], ?_, ?_⟩
    · show (memcpy b.data b.posWrite _).length = b.lenAlloc
      rw [memcpy_length _ _ _ (by omega), hdl]
    · show (memcpy b.data b.posWrite _).take (b.posWrite + len) = _
      have := memcpy_take b.data ((d.take len).map some) b.posWrite (by omega)
      rw [hsrc] at this
      exact this

theorem write_defined (b b2 : rbusBuffer) (d : List Nat) (len : Nat)
    (hmax : b.lenAlloc ≤ INT_MAX)
    (h : rbusBuffer_Write b d len = some b2) :
    len ≤ d.length ∧ b.posWrite + len ≤ INT_MAX ∧
      capacityAfter b.lenAlloc (b.posWrite + len) ≤ INT_MAX := by
  unfold rbusBuffer_Write at h
  unfold capacityAfter
  by_cases h1 : INT_MAX < b.posWrite + len
  · simp [h1] at h
  · by_cases h2 : d.length < len
    · simp [h1, h2] at h
    · by_cases h3 : b.posWrite + len > b.lenAlloc
      · by_cases h4 : INT_MAX < ((b.posWrite + len) / BUFFER_BLOCK_SIZE + 1) * BUFFER_BLOCK_SIZE
        · simp [h1, h2, h3, h4] at h
        · rw [if_pos h3]
          exact ⟨by omega, by omega, by omega⟩
      · rw [if_neg h3]
        exact ⟨by omega, by omega, hmax⟩

/-- Everything a returning write does to a well-formed buffer. -/
theorem write_post (b b2 : rbusBuffer) (d : List Nat) (len : Nat) (hwf : Wf b)
    (hmax : b.lenAlloc ≤ INT_MAX) (h : rbusBuffer_Write b d len = some b2) :
    b2.posWrite = b.posWrite + len ∧ b2.posRead = b.posRead ∧
      b2.lenAlloc = capacityAfter b.lenAlloc (b.posWrite + len) ∧
      b2.onHeap = (b.onHeap || decide (b.posWrite + len > b.lenAlloc)) ∧
      b2.data.length = b2.lenAlloc ∧
      b2.data.take (b.posWrite + len) = b.data.take b.posWrite ++ (d.take len).map some := by
  obtain ⟨h1, h2, h3⟩ := write_defined b b2 d len hmax h
  obtain ⟨b3, e, r⟩ := write_some b d len hwf h1 h2 h3
  rw [h] at e
  cases e
  exact r

theorem capacityAfter_ge (l p : Nat) : l ≤ capacityAfter l p ∧ p ≤ capacityAfter l p := by
  unfold capacityAfter BUFFER_BLOCK_SIZE
  split <;> omega

theorem capacityAfter_block (l p : Nat) (h : l % BUFFER_BLOCK_SIZE = 0) :
    capacityAfter l p % BUFFER_BLOCK_SIZE = 0 := by
  unfold capacityAfter
  split
  · exact Nat.mul_mod_left _ _
  · exact h

theorem Inv.wf {b : rbusBuffer} (h : Inv b) : Wf b := ⟨h.hlen, h.hw⟩

theorem Inv.block_le {b : rbusBuffer} (h : Inv b) : BUFFER_BLOCK_SIZE ≤ b.lenAlloc := by
  cases hb : b.onHeap
  · exact le_of_eq (h.hemb hb).symm
  · exact le_of_lt (h.hheap hb).1

theorem create_inv : Inv rbusBuffer_Create :=
  { hlen := by simp [rbusBuffer_Create, malloc]
    hw := by simp [rbusBuffer_Create]
    hr := by simp [rbusBuffer_Create, BUFFER_BLOCK_SIZE]
    hmax := by simp [rbusBuffer_Create, BUFFER_BLOCK_SIZE, INT_MAX]
    hblock := by simp [rbusBuffer_Create]
    hemb := fun _ => rfl
    hheap := by simp [rbusBuffer_Create] }

theorem write_inv (b b2 : rbusBuffer) (d : List Nat) (len : Nat) (hinv : Inv b)
    (h : rbusBuffer_Write b d len = some b2) : Inv b2 := by
  obtain ⟨_, _, h3⟩ := write_defined b b2 d len hinv.hmax h
  obtain ⟨p1, p2, p3, p4, p5, _⟩ := write_post b b2 d len hinv.wf hinv.hmax h
  have hge := capacityAfter_ge b.lenAlloc (b.posWrite + len)
  have hbl := hinv.block_le
  refine { hlen := p5, hw := by omega, hr := ?_, hmax := by omega, hblock := ?_, hemb := ?_, hheap := ?_ }
  · have := hinv.hr; omega
  · rw [p3]; exact capacityAfter_block _ _ hinv.hblock
  · intro hf
    rw [p4] at hf
    simp only [Bool.or_eq_false_iff, decide_eq_false_iff_not] at hf
    rw [p3]; unfold capacityAfter; rw [if_neg hf.2]
    exact hinv.hemb hf.1
  · intro ht
    rw [p4] at ht
    simp only [Bool.or_eq_true, decide_eq_true_eq] at ht
    rcases ht with ht | ht
    · have := hinv.hheap ht
      constructor <;> omega
    · constructor <;> omega

theorem read_inv (b b2 : rbusBuffer) (len : Nat) (out : List Cell) (hinv : Inv b)
    (h : rbusBuffer_Read b len = ReadResult.ok b2 out) : Inv b2 := by
  unfold rbusBuffer_Read at h
  split at h
  · cases h
  · split at h
    · cases h
      exact { hlen := hinv.hlen, hw := hinv.hw, hr := by assumption, hmax := hinv.hmax,
              hblock := hinv.hblock, hemb := hinv.hemb, hheap := hinv.hheap }
    · cases h

theorem read_fields (b b2 : rbusBuffer) (len : Nat) (out : List Cell)
    (h : rbusBuffer_Read b len = ReadResult.ok b2 out) :
    b2 = { b with posRead := b.posRead + len } ∧ out = (b.data.drop b.posRead).take len ∧
      b.posRead + len < b.lenAlloc ∧ b.posRead + len ≤ INT_MAX := by
  unfold rbusBuffer_Read at h
  split at h
  · cases h
  · split at h
    · cases h
      exact ⟨rfl, rfl, by assumption, by omega⟩
    · cases h


/-! ## Byte order lemmas -/

theorem leBytes_length (w n : Nat) : (leBytes w n).length = w := by
  induction w generalizing n with
  | zero => rfl
  | succ w ih => simp [leBytes, ih]

theorem leBytes_lt (w n : Nat) : ∀ x ∈ leBytes w n, x < 256 := by
  induction w generalizing n with
  | zero => intro x hx; simp [leBytes] at hx
  | succ w ih =>
    intro x hx
    simp only [leBytes, List.mem_cons] at hx
    rcases hx with hx | hx
    · omega
    · exact ih _ x hx

theorem ofLeBytes_leBytes (w n : Nat) : ofLeBytes (leBytes w n) = n % 256 ^ w := by
  induction w generalizing n with
  | zero => simp [leBytes, ofLeBytes, Nat.mod_one]
  | succ w ih =>
    simp only [leBytes, ofLeBytes, ih]
    rw [pow_succ', Nat.mod_mul]

theorem leBytes_ofLeBytes (l : List Nat) (h : ∀ x ∈ l, x < 256) :
    leBytes l.length (ofLeBytes l) = l := by
  induction l with
  | nil => rfl
  | cons b bs ih =>
    have hb : b < 256 := h b (List.mem_cons_self _ _)
    have hbs : ∀ x ∈ bs, x < 256 := fun x hx => h x (List.mem_cons_of_mem _ hx)
    simp only [List.length_cons, leBytes, ofLeBytes]
    have e1 : (b + 256 * ofLeBytes bs) % 256 = b := by omega
    have e2 : (b + 256 * ofLeBytes bs) / 256 = ofLeBytes bs := by omega
    rw [e1, e2, ih hbs]

theorem ofLeBytes_lt (l : List Nat) (h : ∀ x ∈ l, x < 256) : ofLeBytes l < 256 ^ l.length := by
  induction l with
  | nil => simp [ofLeBytes]
  | cons b bs ih =>
    have hb : b < 256 := h b (List.mem_cons_self _ _)
    have hbs : ∀ x ∈ bs, x < 256 := fun x hx => h x (List.mem_cons_of_mem _ hx)
    have := ih hbs
    simp only [List.length_cons, ofLeBytes, pow_succ']
    omega

theorem leBytes_mod (w n : Nat) : leBytes w (n % 256 ^ w) = leBytes w n := by
  have h := leBytes_ofLeBytes (leBytes w n) (leBytes_lt w n)
  rw [leBytes_length, ofLeBytes_leBytes] at h
  exact h

theorem bswap_lt (w n : Nat) : bswap w n < 256 ^ w := by
  have h := ofLeBytes_lt (leBytes w n).reverse (by
    intro x hx; exact leBytes_lt w n x (List.mem_reverse.mp hx))
  rw [List.length_reverse, leBytes_length] at h
  exact h

theorem leBytes_bswap (w n : Nat) : leBytes w (bswap w n) = (leBytes w n).reverse := by
  have h := leBytes_ofLeBytes (leBytes w n).reverse (by
    intro x hx; exact leBytes_lt w n x (List.mem_reverse.mp hx))
  rw [List.length_reverse, leBytes_length] at h
  exact h

theorem bswap_bswap (w n : Nat) : bswap w (bswap w n) = n % 256 ^ w := by
  show ofLeBytes (leBytes w (bswap w n)).reverse = _
  rw [leBytes_bswap, List.reverse_reverse, ofLeBytes_leBytes]

/-- A host-to-little conversion followed by a store leaves the little-endian bytes. -/
theorem objectBytes_htole (be : Bool) (w n : Nat) :
    objectBytes be w (if be then bswap w (n % 256 ^ w) else n % 256 ^ w) = leBytes w n := by
  cases be
  · simp [objectBytes, leBytes_mod]
  · simp only [objectBytes, if_true]
    rw [leBytes_bswap, List.reverse_reverse, leBytes_mod]

/-- A load followed by a little-to-host conversion reads little-endian bytes. -/
theorem letoh_objectValue (be : Bool) (w n : Nat) :
    (if be then bswap w (objectValue be (leBytes w n) % 256 ^ w)
      else objectValue be (leBytes w n) % 256 ^ w) = n % 256 ^ w := by
  cases be
  · simp [objectValue, ofLeBytes_leBytes]
  · simp only [objectValue, if_true]
    show bswap w (bswap w n % 256 ^ w) = _
    rw [Nat.mod_eq_of_lt (bswap_lt w n), bswap_bswap]

theorem objectBytes_htole16 (be : Bool) (n : Nat) :
    objectBytes be 2 (rbusHostToLittleInt16 be n) = leBytes 2 n := by
  have h := objectBytes_htole be 2 n
  norm_num at h
  simpa [rbusHostToLittleInt16, htole16] using h

theorem objectBytes_htole32 (be : Bool) (n : Nat) :
    objectBytes be 4 (rbusHostToLittleInt32 be n) = leBytes 4 n := by
  have h := objectBytes_htole be 4 n
  norm_num at h
  simpa [rbusHostToLittleInt32, htole32] using h

theorem objectBytes_htole64 (be : Bool) (n : Nat) :
    objectBytes be 8 (rbusHostToLittleInt64 be n) = leBytes 8 n := by
  have h := objectBytes_htole be 8 n
  norm_num at h
  simpa [rbusHostToLittleInt64, htole64] using h

theorem letoh16_objectValue (be : Bool) (n : Nat) :
    rbusLittleToHostInt16 be (objectValue be (leBytes 2 n)) = n % 2 ^ 16 := by
  have h := letoh_objectValue be 2 n
  norm_num at h
  simpa [rbusLittleToHostInt16, le16toh] using h

theorem letoh32_objectValue (be : Bool) (n : Nat) :
    rbusLittleToHostInt32 be (objectValue be (leBytes 4 n)) = n % 2 ^ 32 := by
  have h := letoh_objectValue be 4 n
  norm_num at h
  simpa [rbusLittleToHostInt32, le32toh] using h

theorem letoh64_objectValue (be : Bool) (n : Nat) :
    rbusLittleToHostInt64 be (objectValue be (leBytes 8 n)) = n % 2 ^ 64 := by
  have h := letoh_objectValue be 8 n
  norm_num at h
  simpa [rbusLittleToHostInt64, le64toh] using h

theorem initialised_map_some (l : List Nat) : initialised (l.map some) = some l := by
  induction l with
  | nil => rfl
  | cons b bs ih => simp [initialised, ih]


theorem toUnsigned_toSigned_1 (u : Nat) : toUnsigned 1 (toSigned 1 u) = u % 2 ^ 8 := by
  unfold toUnsigned toSigned
  norm_num
  split <;> omega

theorem toUnsigned_toSigned_2 (u : Nat) : toUnsigned 2 (toSigned 2 u) = u % 2 ^ 16 := by
  unfold toUnsigned toSigned
  norm_num
  split <;> omega

theorem toUnsigned_toSigned_4 (u : Nat) : toUnsigned 4 (toSigned 4 u) = u % 2 ^ 32 := by
  unfold toUnsigned toSigned
  norm_num
  split <;> omega

theorem toUnsigned_toSigned_8 (u : Nat) : toUnsigned 8 (toSigned 8 u) = u % 2 ^ 64 := by
  unfold toUnsigned toSigned
  norm_num
  split <;> omega

theorem toSigned_toUnsigned_1 (i : Int) (h1 : -2 ^ 7 ≤ i) (h2 : i < 2 ^ 7) :
    toSigned 1 (toUnsigned 1 i) = i := by
  unfold toUnsigned toSigned
  norm_num at h1 h2 ⊢
  split <;> omega

theorem toSigned_toUnsigned_2 (i : Int) (h1 : -2 ^ 15 ≤ i) (h2 : i < 2 ^ 15) :
    toSigned 2 (toUnsigned 2 i) = i := by
  unfold toUnsigned toSigned
  norm_num at h1 h2 ⊢
  split <;> omega

theorem toSigned_toUnsigned_4 (i : Int) (h1 : -2 ^ 31 ≤ i) (h2 : i < 2 ^ 31) :
    toSigned 4 (toUnsigned 4 i) = i := by
  unfold toUnsigned toSigned
  norm_num at h1 h2 ⊢
  split <;> omega

theorem toSigned_toUnsigned_8 (i : Int) (h1 : -2 ^ 63 ≤ i) (h2 : i < 2 ^ 63) :
    toSigned 8 (toUnsigned 8 i) = i := by
  unfold toUnsigned toSigned
  norm_num at h1 h2 ⊢
  split <;> omega

theorem capacity_fits (l p : Nat) (hl : l ≤ INT_MAX) (h : p ≤ l ∨ p < 2147483584) :
    p ≤ INT_MAX ∧ capacityAfter l p ≤ INT_MAX := by
  unfold capacityAfter BUFFER_BLOCK_SIZE
  unfold INT_MAX at *
  split <;> omega

/-- The three writes of a record, on any state that satisfies the invariant and has room. -/
theorem tlv_some (be : Bool) (b : rbusBuffer) (t n : Nat) (value : List Nat) (hinv : Inv b)
    (hv : n % 2 ^ 16 ≤ value.length) (hroom : b.posWrite + 4 + n % 2 ^ 16 < 2147483584) :
    ∃ b2, rbusBuffer_WriteTypeLengthValue be b t n value = some b2 ∧ Inv b2 ∧
      b2.posWrite = b.posWrite + 4 + n % 2 ^ 16 ∧ b2.posRead = b.posRead ∧
      b2.data.take (b.posWrite + 4 + n % 2 ^ 16) =
        b.data.take b.posWrite ++
          (leBytes 2 t ++ leBytes 2 n ++ value.take (n % 2 ^ 16)).map some := by
  unfold rbusBuffer_WriteTypeLengthValue
  simp only [objectBytes_htole16]
  have hl2 : ∀ m, 2 ≤ (leBytes 2 m).length := fun m => by rw [leBytes_length]
  have ht2 : ∀ m, (leBytes 2 m).take 2 = leBytes 2 m := fun m =>
    List.take_of_length_le (by rw [leBytes_length])
  obtain ⟨f1, f1c⟩ := capacity_fits b.lenAlloc (b.posWrite + 2) hinv.hmax (Or.inr (by omega))
  obtain ⟨b1, e1, p1, r1, _, _, _, d1⟩ := write_some b (leBytes 2 t) 2 hinv.wf (hl2 t) f1 f1c
  have i1 := write_inv b b1 _ 2 hinv e1
  obtain ⟨f2, f2c⟩ := capacity_fits b1.lenAlloc (b1.posWrite + 2) i1.hmax (Or.inr (by omega))
  obtain ⟨b2, e2, p2, r2, _, _, _, d2⟩ :=
    write_some b1 (leBytes 2 (n % 2 ^ 16)) 2 i1.wf (hl2 _) f2 f2c
  have i2 := write_inv b1 b2 _ 2 i1 e2
  obtain ⟨f3, f3c⟩ := capacity_fits b2.lenAlloc (b2.posWrite + n % 2 ^ 16) i2.hmax
    (Or.inr (by omega))
  obtain ⟨b3, e3, p3, r3, _, _, _, d3⟩ := write_some b2 value (n % 2 ^ 16) i2.wf hv f3 f3c
  have i3 := write_inv b2 b3 _ _ i2 e3
  refine ⟨b3, ?_, i3, by omega, by omega, ?_⟩
  · simp only [e1, e2, e3, Option.some_bind]
  · have hm : leBytes 2 (n % 2 ^ 16) = leBytes 2 n := by
      have := leBytes_mod 2 n
      norm_num at this ⊢
      exact this
    rw [ht2] at d1 d2
    rw [p2, p1] at d3
    rw [p1] at d2
    have e : b.posWrite + 4 + n % 2 ^ 16 = b.posWrite + 2 + 2 + n % 2 ^ 16 := by omega
    rw [e, d3, d2, d1, hm]
    simp only [List.map_append, List.append_assoc]


/-! ## Calling sequences keep the invariant -/

theorem tlv_post (be : Bool) (b b2 : rbusBuffer) (t n : Nat) (value : List Nat) (hinv : Inv b)
    (h : rbusBuffer_WriteTypeLengthValue be b t n value = some b2) :
    Inv b2 ∧ b2.posWrite = b.posWrite + (4 + n % 2 ^ 16) ∧ b2.posRead = b.posRead := by
  unfold rbusBuffer_WriteTypeLengthValue at h
  simp only [Option.bind_eq_some] at h
  obtain ⟨b1, e1, b1b, e2, e3⟩ := h
  have i1 := write_inv _ _ _ _ hinv e1
  have i2 := write_inv _ _ _ _ i1 e2
  have i3 := write_inv _ _ _ _ i2 e3
  obtain ⟨p1, r1, _⟩ := write_post _ _ _ _ hinv.wf hinv.hmax e1
  obtain ⟨p2, r2, _⟩ := write_post _ _ _ _ i1.wf i1.hmax e2
  obtain ⟨p3, r3, _⟩ := write_post _ _ _ _ i2.wf i2.hmax e3
  exact ⟨i3, by omega, by omega⟩

theorem step_inv (b b2 : rbusBuffer) (op : Op) (hinv : Inv b) (h : step b op = some b2) :
    Inv b2 ∧ b2.posWrite = b.posWrite + op.written := by
  cases op with
  | write d len =>
    exact ⟨write_inv _ _ _ _ hinv h, (write_post _ _ _ _ hinv.wf hinv.hmax h).1⟩
  | writeTLV be t n v =>
    obtain ⟨i, p, _⟩ := tlv_post be b b2 t n v hinv h
    exact ⟨i, p⟩
  | read len =>
    simp only [step] at h
    cases hr : rbusBuffer_Read b len with
    | ok b3 out =>
      rw [hr] at h
      cases h
      refine ⟨read_inv _ _ _ _ hinv hr, ?_⟩
      rw [(read_fields _ _ _ _ hr).1]
      rfl
    | assertFailed b3 => rw [hr] at h; cases h
    | undefined => rw [hr] at h; cases h

theorem run_inv (ops : List Op) (b b2 : rbusBuffer) (hinv : Inv b) (h : run b ops = some b2) :
    Inv b2 ∧ b2.posWrite = b.posWrite + bytesWritten ops := by
  induction ops generalizing b with
  | nil =>
    simp only [run, Option.some.injEq] at h
    subst h
    exact ⟨hinv, rfl⟩
  | cons op ops ih =>
    simp only [run, Option.bind_eq_some] at h
    obtain ⟨b1, e1, e2⟩ := h
    obtain ⟨i1, p1⟩ := step_inv b b1 op hinv e1
    obtain ⟨i2, p2⟩ := ih b1 i1 e2
    refine ⟨i2, ?_⟩
    simp only [bytesWritten]
    omega

theorem reachable_inv (b : rbusBuffer) (h : Reachable b) : Inv b := by
  obtain ⟨ops, e⟩ := h
  exact (run_inv ops _ _ create_inv e).1

theorem reachable_create : Reachable rbusBuffer_Create := ⟨[], rfl⟩


/-! ## The claims -/

theorem take_split {α : Type} (l A B : List α) (p len : Nat) (h : l.take (p + len) = A ++ B)
    (hA : A.length = p) : l.take p = A ∧ (l.drop p).take len = B := by
  constructor
  · have h1 : (l.take (p + len)).take p = l.take p := by
      rw [List.take_take, Nat.min_eq_left (by omega)]
    rw [← h1, h, List.take_left' hA]
  · have h2 : (l.take (p + len)).drop p = (l.drop p).take len := by
      rw [List.drop_take]
      congr 1
      omega
    rw [← h2, h, List.drop_left' hA]

theorem and_255 (x : Nat) : x &&& 0xFF = x % 256 := by
  have := Nat.and_pow_two_sub_one_eq_mod x 8
  simpa using this

/-- C1, counterexample: a write of `INT_MAX` bytes to a fresh buffer keeps
`posWrite + len` within `int`, but the capacity `(INT_MAX / 64 + 1) * 64` that
line 61 computes does not fit in an `int`: the call is undefined and appends
nothing. -/
theorem write_capacity_overflow :
    Reachable rbusBuffer_Create ∧
      (List.replicate INT_MAX (0 : Nat)).length = INT_MAX ∧
      rbusBuffer_Create.posWrite + INT_MAX ≤ INT_MAX ∧
      rbusBuffer_Write rbusBuffer_Create (List.replicate INT_MAX 0) INT_MAX = none := by
  have h1 : ¬ INT_MAX < rbusBuffer_Create.posWrite + INT_MAX := by
    show ¬ INT_MAX < 0 + INT_MAX
    omega
  have h2 : ¬ (List.replicate INT_MAX (0 : Nat)).length < INT_MAX := by
    rw [List.length_replicate]; omega
  have h3 : rbusBuffer_Create.posWrite + INT_MAX > rbusBuffer_Create.lenAlloc := by
    show 0 + INT_MAX > 64
    unfold INT_MAX; omega
  have h4 : INT_MAX <
      ((rbusBuffer_Create.posWrite + INT_MAX) / BUFFER_BLOCK_SIZE + 1) * BUFFER_BLOCK_SIZE := by
    show INT_MAX < ((0 + INT_MAX) / 64 + 1) * 64
    unfold INT_MAX; omega
  refine ⟨reachable_create, List.length_replicate _ _, by omega, ?_⟩
  unfold rbusBuffer_Write
  simp only [h1, h2, h3, h4, if_true, if_false]

/-- C1, amended: in every reachable state, a write of the `len` bytes `d` that
fits in the current capacity, or ends below `2^31 - 64` so that the rounded
capacity fits in an `int`, returns; it advances `posWrite` by `len`, stores `d`
at offsets `[old posWrite, old posWrite + len)`, keeps the bytes at
`[0, old posWrite)` (whether or not the storage grows) and keeps `posRead`. -/
theorem write_appends (b : rbusBuffer) (d : List Nat) (hb : Reachable b)
    (hroom : b.posWrite + d.length ≤ b.lenAlloc ∨ b.posWrite + d.length < 2147483584) :
    ∃ b2, rbusBuffer_Write b d d.length = some b2 ∧
      b2.posWrite = b.posWrite + d.length ∧
      (b2.data.drop b.posWrite).take d.length = d.map some ∧
      b2.data.take b.posWrite = b.data.take b.posWrite ∧
      b2.posRead = b.posRead := by
  have hinv := reachable_inv b hb
  obtain ⟨f, fc⟩ := capacity_fits b.lenAlloc _ hinv.hmax hroom
  obtain ⟨b2, e, p, r, _, _, _, dd⟩ := write_some b d d.length hinv.wf (le_refl _) f fc
  rw [List.take_length] at dd
  have hA : (b.data.take b.posWrite).length = b.posWrite := by
    rw [List.length_take, hinv.hlen]; exact Nat.min_eq_left hinv.hw
  obtain ⟨s1, s2⟩ := take_split _ _ _ _ _ dd hA
  exact ⟨b2, e, p, s2, s1, r⟩

/-- C1, amended, at a concrete input: three bytes written to a fresh buffer. -/
theorem write_appends_witness :
    ∃ b2, rbusBuffer_Write rbusBuffer_Create [1, 2, 3] [1, 2, 3].length = some b2 ∧
      b2.posWrite = rbusBuffer_Create.posWrite + [1, 2, 3].length ∧
      (b2.data.drop rbusBuffer_Create.posWrite).take [1, 2, 3].length = [1, 2, 3].map some ∧
      b2.data.take rbusBuffer_Create.posWrite
        = rbusBuffer_Create.data.take rbusBuffer_Create.posWrite ∧
      b2.posRead = rbusBuffer_Create.posRead :=
  write_appends rbusBuffer_Create [1, 2, 3] reachable_create (Or.inl (by decide))

/-- C2: in a reachable state with room for the record, for every type tag `t`,
length `n ≤ 65535`, value of `n` bytes and host byte order,
`rbusBuffer_WriteTypeLengthValue` returns, advances `posWrite` by `4 + n`, and the
`4 + n` bytes it appends are the low byte of `t`, the high byte of `t`, the low
byte of `n`, the high byte of `n`, then the value bytes unchanged; the bytes
before them stay as they were. -/
theorem writeTypeLengthValue_record (be : Bool) (b : rbusBuffer) (t n : Nat)
    (value : List Nat) (hb : Reachable b) (hn : n ≤ 65535) (hv : value.length = n)
    (hroom : b.posWrite + 4 + n < 2147483584) :
    ∃ b2, rbusBuffer_WriteTypeLengthValue be b t n value = some b2 ∧
      b2.posWrite = b.posWrite + (4 + n) ∧
      (b2.data.drop b.posWrite).take (4 + n) =
        ([t % 256, t / 256 % 256, n % 256, n / 256 % 256] ++ value).map some ∧
      b2.data.take b.posWrite = b.data.take b.posWrite := by
  have hinv := reachable_inv b hb
  have hm : n % 2 ^ 16 = n := Nat.mod_eq_of_lt (by omega)
  obtain ⟨b2, e, _, p, _, dd⟩ := tlv_some be b t n value hinv (by omega) (by omega)
  rw [hm] at p dd
  have hA : (b.data.take b.posWrite).length = b.posWrite := by
    rw [List.length_take, hinv.hlen]; exact Nat.min_eq_left hinv.hw
  rw [Nat.add_assoc] at dd
  obtain ⟨s1, s2⟩ := take_split _ _ _ _ _ dd hA
  refine ⟨b2, e, by omega, ?_, s1⟩
  rw [s2, ← hv, List.take_length]
  simp [leBytes]

/-- C2 at a concrete input: tag `0x508`, a three-byte value, big-endian host,
fresh buffer. -/
theorem writeTypeLengthValue_record_witness :
    ∃ b2, rbusBuffer_WriteTypeLengthValue true rbusBuffer_Create 0x508 3 [7, 8, 9] = some b2 ∧
      b2.posWrite = rbusBuffer_Create.posWrite + (4 + 3) ∧
      (b2.data.drop rbusBuffer_Create.posWrite).take (4 + 3) =
        ([0x508 % 256, 0x508 / 256 % 256, 3 % 256, 3 / 256 % 256] ++ [7, 8, 9]).map some ∧
      b2.data.take rbusBuffer_Create.posWrite
        = rbusBuffer_Create.data.take rbusBuffer_Create.posWrite :=
  writeTypeLengthValue_record true rbusBuffer_Create 0x508 3 [7, 8, 9] reachable_create
    (by decide) rfl (by decide)


/-- C3: in a reachable state with room for the record, for every 32-bit value
`v` and host byte order, `rbusBuffer_WriteUInt32TLV` appends a record whose
length field is the bytes `04 00` and whose value byte `i` is
`(v >> 8*i) & 0xFF`; for `v = 0x12345678` the value field is `78 56 34 12`. -/
theorem writeUInt32TLV_record (be : Bool) (ty : rbusValueType) (b : rbusBuffer) (v : Nat)
    (hb : Reachable b) (hv : v < 2 ^ 32) (hroom : b.posWrite + 8 < 2147483584) :
    ∃ b2, rbusBuffer_WriteUInt32TLV be ty b v = some b2 ∧
      b2.posWrite = b.posWrite + 8 ∧
      (b2.data.drop (b.posWrite + 2)).take 2 = [some 4, some 0] ∧
      (∀ i, i < 4 → b2.data[b.posWrite + 4 + i]? = some (some ((v >>> (8 * i)) &&& 0xFF))) ∧
      (v = 0x12345678 →
        (b2.data.drop (b.posWrite + 4)).take 4 = [some 0x78, some 0x56, some 0x34, some 0x12]) := by
  have hinv := reachable_inv b hb
  unfold rbusBuffer_WriteUInt32TLV
  simp only [objectBytes_htole32]
  obtain ⟨b2, e, _, p, _, dd⟩ := tlv_some be b ty.RBUS_UINT32 4 (leBytes 4 (v % 2 ^ 32)) hinv
    (by rw [leBytes_length]; decide) (by norm_num; omega)
  have h4 : 4 % 2 ^ 16 = 4 := by norm_num
  rw [h4] at p dd
  have hA : (b.data.take b.posWrite).length = b.posWrite := by
    rw [List.length_take, hinv.hlen]; exact Nat.min_eq_left hinv.hw
  rw [Nat.add_assoc] at dd
  obtain ⟨_, s2⟩ := take_split _ _ _ _ _ dd hA
  have hvm : v % 2 ^ 32 = v := Nat.mod_eq_of_lt hv
  rw [hvm] at s2
  simp only [leBytes, List.take, List.cons_append, List.nil_append, List.map] at s2
  norm_num at s2
  have hget : ∀ j, j < 8 → b2.data[b.posWrite + j]? = ((b2.data.drop b.posWrite).take 8)[j]? := by
    intro j hj
    rw [List.getElem?_take_of_lt hj, List.getElem?_drop]
  refine ⟨b2, e, by omega, ?_, ?_, ?_⟩
  · have : (b2.data.drop (b.posWrite + 2)).take 2
        = (((b2.data.drop b.posWrite).take 8).drop 2).take 2 := by
      rw [List.drop_take, List.take_take, List.drop_drop]
      simp [Nat.add_comm]
    rw [this, s2]
    rfl
  · intro i hi
    rw [Nat.add_assoc, hget _ (by omega), s2, and_255, Nat.shiftRight_eq_div_pow]
    interval_cases i <;> simp <;> omega
  · intro hv2
    have : (b2.data.drop (b.posWrite + 4)).take 4
        = (((b2.data.drop b.posWrite).take 8).drop 4).take 4 := by
      rw [List.drop_take, List.take_take, List.drop_drop]
      simp [Nat.add_comm]
    rw [this, s2, hv2]
    rfl

/-- C3 at a concrete input: `0x12345678` written on a big-endian host to a
fresh buffer. -/
theorem writeUInt32TLV_record_witness :
    ∃ b2, rbusBuffer_WriteUInt32TLV true sampleTypes rbusBuffer_Create 0x12345678 = some b2 ∧
      b2.posWrite = rbusBuffer_Create.posWrite + 8 ∧
      (b2.data.drop (rbusBuffer_Create.posWrite + 2)).take 2 = [some 4, some 0] ∧
      (∀ i, i < 4 → b2.data[rbusBuffer_Create.posWrite + 4 + i]?
        = some (some ((0x12345678 >>> (8 * i)) &&& 0xFF))) ∧
      (0x12345678 = 0x12345678 →
        (b2.data.drop (rbusBuffer_Create.posWrite + 4)).take 4
          = [some 0x78, some 0x56, some 0x34, some 0x12]) :=
  writeUInt32TLV_record true sampleTypes rbusBuffer_Create 0x12345678 reachable_create
    (by decide) (by decide)


/-- A record of at most 59 value bytes written to a fresh buffer: a read of
four bytes skips the header and the next read returns the value bytes. -/
theorem payload_after_header (be : Bool) (t w : Nat) (bs : List Nat) (hw : w ≤ 59)
    (hbs : bs.length = w) :
    ∃ b1 b2 hdr b3, rbusBuffer_WriteTypeLengthValue be rbusBuffer_Create t w bs = some b1 ∧
      rbusBuffer_Read b1 4 = ReadResult.ok b2 hdr ∧
      rbusBuffer_Read b2 w = ReadResult.ok b3 (bs.map some) := by
  have hm : w % 2 ^ 16 = w := Nat.mod_eq_of_lt (by omega)
  obtain ⟨b1, e, i1, p, r, dd⟩ := tlv_some be rbusBuffer_Create t w bs create_inv
    (by omega) (by rw [hm]; show 0 + 4 + w < _; omega)
  rw [hm] at p dd
  have p0 : rbusBuffer_Create.posWrite = 0 := rfl
  have r0 : rbusBuffer_Create.posRead = 0 := rfl
  rw [p0] at p dd
  rw [r0] at r
  have hle := i1.block_le
  have hmx := i1.hmax
  unfold BUFFER_BLOCK_SIZE at hle
  unfold INT_MAX at hmx
  have hA : ((leBytes 2 t ++ leBytes 2 w).map some).length = 4 := by
    simp [leBytes_length]
  have dd2 : b1.data.take (4 + w) = (leBytes 2 t ++ leBytes 2 w).map some ++ bs.map some := by
    have : (0 : Nat) + 4 + w = 4 + w := by omega
    rw [this] at dd
    rw [dd, ← hbs, List.take_length]
    simp
  obtain ⟨_, s2⟩ := take_split _ _ _ _ _ dd2 hA
  refine ⟨b1, { b1 with posRead := b1.posRead + 4 }, (b1.data.drop b1.posRead).take 4,
    { b1 with posRead := b1.posRead + 4 + w }, e, ?_, ?_⟩
  · unfold rbusBuffer_Read INT_MAX
    rw [if_neg (by omega), if_pos (by omega)]
  · unfold rbusBuffer_Read INT_MAX
    simp only
    rw [if_neg (by omega), if_pos (by omega), r]
    simp only [Nat.zero_add]
    rw [s2]

/-- C4, counterexample: `rbusBuffer_ReadUInt32` applied to the buffer that
`rbusBuffer_WriteUInt32TLV` filled with the value `0` reads the four header
bytes `08 05 04 00` and returns `0x00040508`, not `0`.  Whatever the type tag,
the length bytes `04 00` are the upper half of what is returned. -/
theorem readUInt32_reads_header :
    ∃ b1 b2, rbusBuffer_WriteUInt32TLV false sampleTypes rbusBuffer_Create 0 = some b1 ∧
      rbusBuffer_ReadUInt32 false b1 = ReadResult.ok b2 (some 0x00040508) :=
  ⟨_, _, rfl, rfl⟩


theorem decodes_of_payload {α : Type} (be : Bool) (t w : Nat) (bs : List Nat)
    (f : List Nat → α) (v : α) (hw : w ≤ 59) (hbs : bs.length = w) (hf : f bs = v) :
    DecodesAfterHeader (rbusBuffer_WriteTypeLengthValue be rbusBuffer_Create t w bs)
      (fun b => readThen (rbusBuffer_Read b w) f) v := by
  obtain ⟨b1, b2, hdr, b3, e1, e2, e3⟩ := payload_after_header be t w bs hw hbs
  refine ⟨b1, b2, hdr, b3, e1, e2, ?_⟩
  simp only [e3, readThen, initialised_map_some, Option.map_some', hf]

theorem objectBytes_mod (be : Bool) (w n : Nat) :
    objectBytes be w (n % 256 ^ w) = objectBytes be w n := by
  unfold objectBytes
  rw [leBytes_mod]

theorem toSigned_mod (w u : Nat) : toSigned w (u % 2 ^ (8 * w)) = toSigned w u := by
  unfold toSigned
  rw [Nat.mod_mod]

theorem objectBytes_one (be : Bool) (n : Nat) : objectBytes be 1 n = [n % 256] := by
  cases be <;> simp [objectBytes, leBytes]

theorem objectValue_one (be : Bool) (x : Nat) : objectValue be [x] = x := by
  cases be <;> simp [objectValue, ofLeBytes]

/-- C4, amended: for each of the eight integer types, every value of the type
and either host byte order, writing the value into a fresh buffer with the typed
writer, skipping the four header bytes with `rbusBuffer_Read`, and then calling
the matching typed reader returns the value. -/
theorem typed_roundtrip_after_header (be : Bool) (ty : rbusValueType) :
    (∀ v : Int, -2 ^ 7 ≤ v → v < 2 ^ 7 →
      DecodesAfterHeader (rbusBuffer_WriteInt8TLV be ty rbusBuffer_Create v)
        (rbusBuffer_ReadInt8 be) v) ∧
    (∀ v : Nat, v < 2 ^ 8 →
      DecodesAfterHeader (rbusBuffer_WriteUInt8TLV be ty rbusBuffer_Create v)
        (rbusBuffer_ReadUInt8 be) v) ∧
    (∀ v : Int, -2 ^ 15 ≤ v → v < 2 ^ 15 →
      DecodesAfterHeader (rbusBuffer_WriteInt16TLV be ty rbusBuffer_Create v)
        (rbusBuffer_ReadInt16 be) v) ∧
    (∀ v : Nat, v < 2 ^ 16 →
      DecodesAfterHeader (rbusBuffer_WriteUInt16TLV be ty rbusBuffer_Create v)
        (rbusBuffer_ReadUInt16 be) v) ∧
    (∀ v : Int, -2 ^ 31 ≤ v → v < 2 ^ 31 →
      DecodesAfterHeader (rbusBuffer_WriteInt32TLV be ty rbusBuffer_Create v)
        (rbusBuffer_ReadInt32 be) v) ∧
    (∀ v : Nat, v < 2 ^ 32 →
      DecodesAfterHeader (rbusBuffer_WriteUInt32TLV be ty rbusBuffer_Create v)
        (rbusBuffer_ReadUInt32 be) v) ∧
    (∀ v : Int, -2 ^ 63 ≤ v → v < 2 ^ 63 →
      DecodesAfterHeader (rbusBuffer_WriteInt64TLV be ty rbusBuffer_Create v)
        (rbusBuffer_ReadInt64 be) v) ∧
    (∀ v : Nat, v < 2 ^ 64 →
      DecodesAfterHeader (rbusBuffer_WriteUInt64TLV be ty rbusBuffer_Create v)
        (rbusBuffer_ReadUInt64 be) v) := by
  have m16 : ∀ n, objectBytes be 2 (n % 2 ^ 16) = objectBytes be 2 n := fun n => by
    have := objectBytes_mod be 2 n; norm_num at this ⊢; exact this
  have m32 : ∀ n, objectBytes be 4 (n % 2 ^ 32) = objectBytes be 4 n := fun n => by
    have := objectBytes_mod be 4 n; norm_num at this ⊢; exact this
  have m64 : ∀ n, objectBytes be 8 (n % 2 ^ 64) = objectBytes be 8 n := fun n => by
    have := objectBytes_mod be 8 n; norm_num at this ⊢; exact this
  have s8 : ∀ u, toSigned 1 (u % 2 ^ 8) = toSigned 1 u := fun u => toSigned_mod 1 u
  have s16 : ∀ u, toSigned 2 (u % 2 ^ 16) = toSigned 2 u := fun u => toSigned_mod 2 u
  have s32 : ∀ u, toSigned 4 (u % 2 ^ 32) = toSigned 4 u := fun u => toSigned_mod 4 u
  have s64 : ∀ u, toSigned 8 (u % 2 ^ 64) = toSigned 8 u := fun u => toSigned_mod 8 u
  have l16 : ∀ x, rbusLittleToHostInt16 be (x % 2 ^ 16) = rbusLittleToHostInt16 be x := fun x => by
    simp only [rbusLittleToHostInt16, le16toh, Nat.mod_mod]
  have l32 : ∀ x, rbusLittleToHostInt32 be (x % 2 ^ 32) = rbusLittleToHostInt32 be x := fun x => by
    simp only [rbusLittleToHostInt32, le32toh, Nat.mod_mod]
  have l64 : ∀ x, rbusLittleToHostInt64 be (x % 2 ^ 64) = rbusLittleToHostInt64 be x := fun x => by
    simp only [rbusLittleToHostInt64, le64toh, Nat.mod_mod]
  refine ⟨?_, ?_, ?_, ?_, ?_, ?_, ?_, ?_⟩
  · intro v h1 h2
    unfold rbusBuffer_WriteInt8TLV
    rw [objectBytes_one]
    refine decodes_of_payload be _ 1 _ _ v (by decide) rfl ?_
    simp only [objectValue_one]
    have := s8 (toUnsigned 1 v)
    norm_num at this
    rw [this, toSigned_toUnsigned_1 v h1 h2]
  · intro v h
    unfold rbusBuffer_WriteUInt8TLV
    rw [objectBytes_one]
    refine decodes_of_payload be _ 1 _ _ v (by decide) rfl ?_
    simp only [objectValue_one]
    omega
  · intro v h1 h2
    unfold rbusBuffer_WriteInt16TLV
    simp only [toUnsigned_toSigned_2]
    rw [m16, objectBytes_htole16]
    refine decodes_of_payload be _ 2 _ _ v (by decide) (leBytes_length _ _) ?_
    simp only [toUnsigned_toSigned_2]
    rw [l16, letoh16_objectValue, s16, toSigned_toUnsigned_2 v h1 h2]
  · intro v h
    unfold rbusBuffer_WriteUInt16TLV
    simp only
    rw [objectBytes_htole16]
    refine decodes_of_payload be _ 2 _ _ v (by decide) (leBytes_length _ _) ?_
    simp only
    rw [letoh16_objectValue, Nat.mod_mod, Nat.mod_eq_of_lt h]
  · intro v h1 h2
    unfold rbusBuffer_WriteInt32TLV
    simp only [toUnsigned_toSigned_4]
    rw [m32, objectBytes_htole32]
    refine decodes_of_payload be _ 4 _ _ v (by decide) (leBytes_length _ _) ?_
    simp only [toUnsigned_toSigned_4]
    rw [l32, letoh32_objectValue, s32, toSigned_toUnsigned_4 v h1 h2]
  · intro v h
    unfold rbusBuffer_WriteUInt32TLV
    simp only
    rw [objectBytes_htole32]
    refine decodes_of_payload be _ 4 _ _ v (by decide) (leBytes_length _ _) ?_
    simp only
    rw [letoh32_objectValue, Nat.mod_mod, Nat.mod_eq_of_lt h]
  · intro v h1 h2
    unfold rbusBuffer_WriteInt64TLV
    simp only [toUnsigned_toSigned_8]
    rw [m64, objectBytes_htole64]
    refine decodes_of_payload be _ 8 _ _ v (by decide) (leBytes_length _ _) ?_
    simp only [toUnsigned_toSigned_8]
    rw [l64, letoh64_objectValue, s64, toSigned_toUnsigned_8 v h1 h2]
  · intro v h
    unfold rbusBuffer_WriteUInt64TLV
    simp only
    rw [objectBytes_htole64]
    refine decodes_of_payload be _ 8 _ _ v (by decide) (leBytes_length _ _) ?_
    simp only
    rw [letoh64_objectValue, Nat.mod_mod, Nat.mod_eq_of_lt h]

/-- C4, amended, at concrete inputs: `-2` as a 16-bit signed integer on a
big-endian host, and the largest 64-bit unsigned value on a little-endian one. -/
theorem typed_roundtrip_after_header_witness :
    DecodesAfterHeader (rbusBuffer_WriteInt16TLV true sampleTypes rbusBuffer_Create (-2))
        (rbusBuffer_ReadInt16 true) (-2) ∧
      DecodesAfterHeader
        (rbusBuffer_WriteUInt64TLV false sampleTypes rbusBuffer_Create 18446744073709551615)
        (rbusBuffer_ReadUInt64 false) 18446744073709551615 :=
  ⟨(typed_roundtrip_after_header true sampleTypes).2.2.1 (-2) (by norm_num) (by norm_num),
   (typed_roundtrip_after_header false sampleTypes).2.2.2.2.2.2.2 18446744073709551615
     (by norm_num)⟩

/-- C5, the code at the failing input: after `rbusBuffer_WriteStringTLV` of
`"abc"` with length 4 into a fresh buffer, `rbusBuffer_ReadString` takes its
length from `posRead`, which is 0: it reports length 0, leaves the buffer as it
is and hands back an allocation of one byte that nothing was copied into. -/
theorem readString_reports_posRead :
    ∃ b1, rbusBuffer_WriteStringTLV false sampleTypes rbusBuffer_Create [97, 98, 99, 0] 4
        = some b1 ∧
      b1.posWrite = 8 ∧
      rbusBuffer_ReadString b1 = ReadResult.ok b1 ([none], 0) :=
  ⟨_, rfl, rfl, rfl⟩


/-- C6, counterexample: in the state a one-byte read leaves (`posRead = 1`),
a read of `INT_MAX` bytes would run past the capacity, but `posRead + len`
overflows `int` before the assertion compares it: the call neither fails on
the assertion nor returns the bytes. -/
theorem read_length_overflow :
    Reachable { rbusBuffer_Create with posRead := 1 } ∧
      ({ rbusBuffer_Create with posRead := 1 } : rbusBuffer).lenAlloc
        < ({ rbusBuffer_Create with posRead := 1 } : rbusBuffer).posRead + INT_MAX ∧
      rbusBuffer_Read { rbusBuffer_Create with posRead := 1 } INT_MAX = ReadResult.undefined := by
  refine ⟨⟨[Op.read 1], rfl⟩, ?_, ?_⟩
  · show 64 < 1 + INT_MAX
    unfold INT_MAX; omega
  · unfold rbusBuffer_Read
    rw [if_pos (by show INT_MAX < 1 + INT_MAX; omega)]

/-- C6, amended: for every buffer state whose storage holds `lenAlloc` bytes and
every `len` with `posRead + len` within `int`: when the read would run past the
capacity (`posRead + len > lenAlloc`) it fails on its assertion and the buffer
is as before; when it returns, `out` is the `len` bytes stored at
`[posRead, posRead + len)`, `posRead` has advanced by `len`, and `posWrite`,
`lenAlloc` and the stored bytes are as before; and it does return whenever
`posRead + len < lenAlloc`. -/
theorem read_contract (b : rbusBuffer) (len : Nat) (hstore : b.data.length = b.lenAlloc)
    (hint : b.posRead + len ≤ INT_MAX) :
    (b.lenAlloc < b.posRead + len → rbusBuffer_Read b len = ReadResult.assertFailed b) ∧
    (∀ b2 out, rbusBuffer_Read b len = ReadResult.ok b2 out →
      out.length = len ∧ (∀ i, i < len → out[i]? = b.data[b.posRead + i]?) ∧
      b2.posRead = b.posRead + len ∧ b2.posWrite = b.posWrite ∧
      b2.lenAlloc = b.lenAlloc ∧ b2.data = b.data) ∧
    (b.posRead + len < b.lenAlloc → ∃ b2 out, rbusBuffer_Read b len = ReadResult.ok b2 out) := by
  refine ⟨?_, ?_, ?_⟩
  · intro h
    unfold rbusBuffer_Read
    rw [if_neg (by omega), if_neg (by omega)]
  · intro b2 out h
    obtain ⟨e1, e2, h3, _⟩ := read_fields b b2 len out h
    subst e1 e2
    refine ⟨?_, ?_, rfl, rfl, rfl, rfl⟩
    · rw [List.length_take, List.length_drop]
      omega
    · intro i hi
      rw [List.getElem?_take_of_lt hi, List.getElem?_drop]
  · intro h
    refine ⟨{ b with posRead := b.posRead + len }, (b.data.drop b.posRead).take len, ?_⟩
    unfold rbusBuffer_Read
    rw [if_neg (by omega), if_pos h]

/-- C6, amended, at a concrete input: a fresh buffer and reads of 65 and of 8 bytes. -/
theorem read_contract_witness :
    rbusBuffer_Read rbusBuffer_Create 65 = ReadResult.assertFailed rbusBuffer_Create ∧
      ∃ b2 out, rbusBuffer_Read rbusBuffer_Create 8 = ReadResult.ok b2 out :=
  ⟨(read_contract rbusBuffer_Create 65 (by decide) (by decide)).1 (by decide),
   (read_contract rbusBuffer_Create 8 (by decide) (by decide)).2.2 (by decide)⟩

/-- C7, counterexample: on a fresh buffer nothing has been written, yet a read
of one byte returns: it hands back the never-written first byte of the block,
and `rbusBuffer_ReadUInt8` returns an indeterminate value. -/
theorem read_past_content_returns :
    rbusBuffer_Create.posWrite < rbusBuffer_Create.posRead + 1 ∧
      rbusBuffer_Read rbusBuffer_Create 1
        = ReadResult.ok { rbusBuffer_Create with posRead := 1 } [none] ∧
      rbusBuffer_ReadUInt8 false rbusBuffer_Create
        = ReadResult.ok { rbusBuffer_Create with posRead := 1 } none :=
  ⟨by decide, rfl, rfl⟩

/-- C7, amended: in every buffer state, reachable or not, and for every `len`
with `posRead + len` within `int`: when the read would run past the capacity
(`posRead + len > lenAlloc`), `rbusBuffer_Read` fails and so does a typed reader
built on it; when the read ends below the capacity it returns, whether or not
it goes past `posWrite`. -/
theorem read_fails_past_capacity {α : Type} (b : rbusBuffer) (len : Nat)
    (hint : b.posRead + len ≤ INT_MAX) :
    (b.lenAlloc < b.posRead + len →
      rbusBuffer_Read b len = ReadResult.assertFailed b ∧
      ∀ (f : List Nat → α), readThen (rbusBuffer_Read b len) f = ReadResult.assertFailed b) ∧
    (b.posRead + len < b.lenAlloc →
      ∃ b2 out, rbusBuffer_Read b len = ReadResult.ok b2 out) := by
  constructor
  · intro h
    have hr : rbusBuffer_Read b len = ReadResult.assertFailed b := by
      unfold rbusBuffer_Read
      rw [if_neg (by omega), if_neg (by omega)]
    refine ⟨hr, fun f => ?_⟩
    rw [hr]
    rfl
  · intro h
    refine ⟨{ b with posRead := b.posRead + len }, (b.data.drop b.posRead).take len, ?_⟩
    unfold rbusBuffer_Read
    rw [if_neg (by omega), if_pos h]

/-- C7, amended, at a concrete input: a fresh buffer and a read of 65 bytes. -/
theorem read_fails_past_capacity_witness :
    rbusBuffer_Read rbusBuffer_Create 65 = ReadResult.assertFailed rbusBuffer_Create ∧
      ∀ (f : List Nat → Int),
        readThen (rbusBuffer_Read rbusBuffer_Create 65) f
          = ReadResult.assertFailed rbusBuffer_Create :=
  (read_fails_past_capacity rbusBuffer_Create 65 (by decide)).1 (by decide)

/-- C8, counterexample: a one-byte read on a fresh buffer returns and leaves
`posRead = 1` above `posWrite = 0`. -/
theorem posRead_above_posWrite :
    Reachable { rbusBuffer_Create with posRead := 1 } ∧
      ¬ (({ rbusBuffer_Create with posRead := 1 } : rbusBuffer).posRead
            ≤ ({ rbusBuffer_Create with posRead := 1 } : rbusBuffer).posWrite ∧
          ({ rbusBuffer_Create with posRead := 1 } : rbusBuffer).posWrite
            ≤ ({ rbusBuffer_Create with posRead := 1 } : rbusBuffer).lenAlloc) :=
  ⟨⟨[Op.read 1], rfl⟩, by decide⟩

/-- C8, amended: in every state reachable from `rbusBuffer_Create` through
writes, record writes and returning reads, `posWrite ≤ lenAlloc` and
`posRead ≤ lenAlloc`. -/
theorem positions_within_capacity (b : rbusBuffer) (hb : Reachable b) :
    b.posWrite ≤ b.lenAlloc ∧ b.posRead ≤ b.lenAlloc :=
  ⟨(reachable_inv b hb).hw, le_of_lt (reachable_inv b hb).hr⟩

/-- C8, amended, at a concrete input: the state after a one-byte read. -/
theorem positions_within_capacity_witness :
    ({ rbusBuffer_Create with posRead := 1 } : rbusBuffer).posWrite
        ≤ ({ rbusBuffer_Create with posRead := 1 } : rbusBuffer).lenAlloc ∧
      ({ rbusBuffer_Create with posRead := 1 } : rbusBuffer).posRead
        ≤ ({ rbusBuffer_Create with posRead := 1 } : rbusBuffer).lenAlloc :=
  positions_within_capacity { rbusBuffer_Create with posRead := 1 } ⟨[Op.read 1], rfl⟩

/-- C9: on a fresh buffer one write of exactly 64 bytes returns with the storage
still the embedded block and `lenAlloc` still 64; one write of 65 bytes returns
with the storage on the heap; and after any sequence of returning calls on a
fresh buffer the storage is on the heap exactly when more than 64 bytes were
written in total. -/
theorem growth_boundary :
    (∀ d : List Nat, d.length = 64 →
      ∃ b, rbusBuffer_Write rbusBuffer_Create d 64 = some b ∧ b.onHeap = false ∧
        b.lenAlloc = 64 ∧ b.posWrite = 64) ∧
    (∀ d : List Nat, d.length = 65 →
      ∃ b, rbusBuffer_Write rbusBuffer_Create d 65 = some b ∧ b.onHeap = true) ∧
    (∀ ops b, run rbusBuffer_Create ops = some b →
      (b.onHeap = true ↔ BUFFER_BLOCK_SIZE < bytesWritten ops)) := by
  refine ⟨?_, ?_, ?_⟩
  · intro d hd
    obtain ⟨b, e, p, _, l, h, _⟩ := write_some rbusBuffer_Create d 64 create_inv.wf
      (by omega) (by decide) (by decide)
    exact ⟨b, e, by rw [h]; rfl, by rw [l]; rfl, by rw [p]; rfl⟩
  · intro d hd
    obtain ⟨b, e, _, _, _, h, _⟩ := write_some rbusBuffer_Create d 65 create_inv.wf
      (by omega) (by decide) (by decide)
    exact ⟨b, e, by rw [h]; rfl⟩
  · intro ops b h
    obtain ⟨i, p⟩ := run_inv ops _ _ create_inv h
    have p0 : rbusBuffer_Create.posWrite = 0 := rfl
    rw [p0, Nat.zero_add] at p
    rw [← p]
    constructor
    · intro ht
      exact (i.hheap ht).2
    · intro hlt
      cases hh : b.onHeap
      · have := i.hemb hh
        have := i.hw
        omega
      · rfl

/-- C10, counterexample: a write of 128 bytes into a fresh buffer leaves
`lenAlloc = 192`, although 128 is a multiple of 64 that holds the 128 bytes. -/
theorem capacity_after_128 :
    ∃ b, rbusBuffer_Write rbusBuffer_Create (List.replicate 128 0) 128 = some b ∧
      b.posWrite = 128 ∧ b.lenAlloc = 192 := by
  obtain ⟨b, e, p, _, l, _⟩ := write_some rbusBuffer_Create (List.replicate 128 0) 128
    create_inv.wf (by simp) (by decide) (by decide)
  exact ⟨b, e, by rw [p]; rfl, by rw [l]; rfl⟩

/-- C10, amended: in every reachable state, a write of `len` bytes that fits in
the current capacity, or ends below `2^31 - 64`, returns; `lenAlloc` is unchanged
when `posWrite + len ≤ lenAlloc`, and otherwise the new `lenAlloc` is
`((posWrite + len) / 64 + 1) * 64`, the smallest multiple of 64 that is strictly
greater than `posWrite + len`. -/
theorem growth_policy (b : rbusBuffer) (d : List Nat) (len : Nat) (hb : Reachable b)
    (hlen : len ≤ d.length)
    (hroom : b.posWrite + len ≤ b.lenAlloc ∨ b.posWrite + len < 2147483584) :
    ∃ b2, rbusBuffer_Write b d len = some b2 ∧
      (b.posWrite + len ≤ b.lenAlloc → b2.lenAlloc = b.lenAlloc) ∧
      (b.lenAlloc < b.posWrite + len →
        b2.lenAlloc = ((b.posWrite + len) / BUFFER_BLOCK_SIZE + 1) * BUFFER_BLOCK_SIZE ∧
        b2.lenAlloc % BUFFER_BLOCK_SIZE = 0 ∧ b.posWrite + len < b2.lenAlloc ∧
        ∀ m, m % BUFFER_BLOCK_SIZE = 0 → b.posWrite + len < m → b2.lenAlloc ≤ m) := by
  have hinv := reachable_inv b hb
  obtain ⟨f, fc⟩ := capacity_fits b.lenAlloc _ hinv.hmax hroom
  obtain ⟨b2, e, _, _, l, _⟩ := write_some b d len hinv.wf hlen f fc
  refine ⟨b2, e, ?_, ?_⟩
  · intro h
    rw [l]; unfold capacityAfter
    rw [if_neg (by omega)]
  · intro h
    have hl : b2.lenAlloc = ((b.posWrite + len) / BUFFER_BLOCK_SIZE + 1) * BUFFER_BLOCK_SIZE := by
      rw [l]; unfold capacityAfter
      rw [if_pos (by omega)]
    refine ⟨hl, ?_, ?_, ?_⟩
    · rw [hl]; exact Nat.mul_mod_left _ _
    · rw [hl]; unfold BUFFER_BLOCK_SIZE; omega
    · intro m hm hlt
      rw [hl]
      unfold BUFFER_BLOCK_SIZE at hm ⊢
      omega

/-- C10, amended, at a concrete input: 128 bytes written to a fresh buffer. -/
theorem growth_policy_witness :
    ∃ b2, rbusBuffer_Write rbusBuffer_Create (List.replicate 128 0) 128 = some b2 ∧
      (rbusBuffer_Create.posWrite + 128 ≤ rbusBuffer_Create.lenAlloc →
        b2.lenAlloc = rbusBuffer_Create.lenAlloc) ∧
      (rbusBuffer_Create.lenAlloc < rbusBuffer_Create.posWrite + 128 →
        b2.lenAlloc
          = ((rbusBuffer_Create.posWrite + 128) / BUFFER_BLOCK_SIZE + 1) * BUFFER_BLOCK_SIZE ∧
        b2.lenAlloc % BUFFER_BLOCK_SIZE = 0 ∧ rbusBuffer_Create.posWrite + 128 < b2.lenAlloc ∧
        ∀ m, m % BUFFER_BLOCK_SIZE = 0 → rbusBuffer_Create.posWrite + 128 < m →
          b2.lenAlloc ≤ m) :=
  growth_policy rbusBuffer_Create (List.replicate 128 0) 128 reachable_create
    (by simp) (Or.inr (by decide))


theorem step_mono (b b2 : rbusBuffer) (op : Op) (hinv : Inv b) (h : step b op = some b2) :
    b.lenAlloc ≤ b2.lenAlloc ∧ (b.onHeap = true → b2.onHeap = true) := by
  have hw : ∀ (x y : rbusBuffer) (d : List Nat) (len : Nat), Inv x →
      rbusBuffer_Write x d len = some y →
      x.lenAlloc ≤ y.lenAlloc ∧ (x.onHeap = true → y.onHeap = true) := by
    intro x y d len ix e
    obtain ⟨_, _, p3, p4, _⟩ := write_post x y d len ix.wf ix.hmax e
    refine ⟨?_, ?_⟩
    · rw [p3]; exact (capacityAfter_ge _ _).1
    · intro ht
      rw [p4, ht]
      rfl
  cases op with
  | write d len => exact hw b b2 d len hinv h
  | writeTLV be t n v =>
    simp only [step, rbusBuffer_WriteTypeLengthValue, Option.bind_eq_some] at h
    obtain ⟨b1, e1, b1b, e2, e3⟩ := h
    have i1 := write_inv _ _ _ _ hinv e1
    have i2 := write_inv _ _ _ _ i1 e2
    obtain ⟨l1, o1⟩ := hw _ _ _ _ hinv e1
    obtain ⟨l2, o2⟩ := hw _ _ _ _ i1 e2
    obtain ⟨l3, o3⟩ := hw _ _ _ _ i2 e3
    exact ⟨by omega, fun ht => o3 (o2 (o1 ht))⟩
  | read len =>
    simp only [step] at h
    cases hr : rbusBuffer_Read b len with
    | ok b3 out =>
      rw [hr] at h
      cases h
      rw [(read_fields _ _ _ _ hr).1]
      exact ⟨le_refl _, fun ht => ht⟩
    | assertFailed b3 => rw [hr] at h; cases h
    | undefined => rw [hr] at h; cases h

theorem run_mono (ops : List Op) (b b2 : rbusBuffer) (hinv : Inv b) (h : run b ops = some b2) :
    b.lenAlloc ≤ b2.lenAlloc ∧ (b.onHeap = true → b2.onHeap = true) := by
  induction ops generalizing b with
  | nil =>
    simp only [run, Option.some.injEq] at h
    subst h
    exact ⟨le_refl _, fun ht => ht⟩
  | cons op ops ih =>
    simp only [run, Option.bind_eq_some] at h
    obtain ⟨b1, e1, e2⟩ := h
    obtain ⟨i1, _⟩ := step_inv b b1 op hinv e1
    obtain ⟨l1, o1⟩ := step_mono b b1 op hinv e1
    obtain ⟨l2, o2⟩ := ih b1 i1 e2
    exact ⟨by omega, fun ht => o2 (o1 ht)⟩

/-- C11: in every state reachable from `rbusBuffer_Create` through writes,
record writes and reads, `lenAlloc` is a positive multiple of
`BUFFER_BLOCK_SIZE`, and no further sequence of calls makes it smaller. -/
theorem capacity_alignment (b : rbusBuffer) (hb : Reachable b) :
    0 < b.lenAlloc ∧ b.lenAlloc % BUFFER_BLOCK_SIZE = 0 ∧
      ∀ ops b2, run b ops = some b2 → b.lenAlloc ≤ b2.lenAlloc := by
  have hinv := reachable_inv b hb
  have hle := hinv.block_le
  refine ⟨?_, hinv.hblock, fun ops b2 h => (run_mono ops b b2 hinv h).1⟩
  unfold BUFFER_BLOCK_SIZE at hle
  omega

/-- C11 at a concrete input: the state after a one-byte read. -/
theorem capacity_alignment_witness :
    0 < ({ rbusBuffer_Create with posRead := 1 } : rbusBuffer).lenAlloc ∧
      ({ rbusBuffer_Create with posRead := 1 } : rbusBuffer).lenAlloc % BUFFER_BLOCK_SIZE = 0 ∧
      ∀ ops b2, run { rbusBuffer_Create with posRead := 1 } ops = some b2 →
        ({ rbusBuffer_Create with posRead := 1 } : rbusBuffer).lenAlloc ≤ b2.lenAlloc :=
  capacity_alignment { rbusBuffer_Create with posRead := 1 } ⟨[Op.read 1], rfl⟩

/-- C19: in every state reachable from `rbusBuffer_Create` through writes,
record writes and reads, the storage is the embedded block exactly when
`lenAlloc = 64` and heap storage exactly when `lenAlloc > 64`; the assertion of
`rbusBuffer_Destroy` holds; and heap storage stays heap storage under every
further sequence of calls. -/
theorem storage_variant (b : rbusBuffer) (hb : Reachable b) :
    (b.onHeap = false ↔ b.lenAlloc = BUFFER_BLOCK_SIZE) ∧
      (b.onHeap = true ↔ BUFFER_BLOCK_SIZE < b.lenAlloc) ∧
      rbusBuffer_Destroy b = true ∧
      ∀ ops b2, run b ops = some b2 → b.onHeap = true → b2.onHeap = true := by
  have hinv := reachable_inv b hb
  refine ⟨⟨hinv.hemb, ?_⟩, ⟨fun h => (hinv.hheap h).1, ?_⟩, ?_,
    fun ops b2 h => (run_mono ops b b2 hinv h).2⟩
  · intro h
    cases hh : b.onHeap
    · rfl
    · have := (hinv.hheap hh).1
      omega
  · intro h
    cases hh : b.onHeap
    · have := hinv.hemb hh
      omega
    · rfl
  · unfold rbusBuffer_Destroy
    cases hh : b.onHeap
    · rfl
    · simp only [if_true, decide_eq_true_eq]
      exact (hinv.hheap hh).1

set_option maxRecDepth 20000 in
theorem afterWrite65_written :
    rbusBuffer_Write rbusBuffer_Create (List.replicate 65 7) 65 = some afterWrite65 := by
  decide

theorem afterWrite65_reachable : Reachable afterWrite65 :=
  ⟨[Op.write (List.replicate 65 7) 65], by
    simp only [run, step, afterWrite65_written, Option.some_bind]⟩

/-- C19 at concrete inputs: the heap state that a write of 65 bytes to a fresh
buffer leaves (`onHeap = true`, `lenAlloc = 128`), and the fresh buffer itself. -/
theorem storage_variant_witness :
    ((afterWrite65.onHeap = false ↔ afterWrite65.lenAlloc = BUFFER_BLOCK_SIZE) ∧
      (afterWrite65.onHeap = true ↔ BUFFER_BLOCK_SIZE < afterWrite65.lenAlloc) ∧
      rbusBuffer_Destroy afterWrite65 = true ∧
      ∀ ops b2, run afterWrite65 ops = some b2 → afterWrite65.onHeap = true →
        b2.onHeap = true) ∧
    ((rbusBuffer_Create.onHeap = false ↔ rbusBuffer_Create.lenAlloc = BUFFER_BLOCK_SIZE) ∧
      (rbusBuffer_Create.onHeap = true ↔ BUFFER_BLOCK_SIZE < rbusBuffer_Create.lenAlloc) ∧
      rbusBuffer_Destroy rbusBuffer_Create = true ∧
      ∀ ops b2, run rbusBuffer_Create ops = some b2 →
        rbusBuffer_Create.onHeap = true → b2.onHeap = true) :=
  ⟨storage_variant afterWrite65 afterWrite65_reachable,
   storage_variant rbusBuffer_Create reachable_create⟩

/-- C17, the code at the failing input: a write of 64 bytes into a fresh buffer
fills the block exactly (`posWrite = lenAlloc = 64`, no growth), and the read of
those 64 bytes fails on the assertion `posRead + len < lenAlloc`. -/
theorem read_back_full_block_fails :
    ∃ b, rbusBuffer_Write rbusBuffer_Create (List.replicate 64 7) 64 = some b ∧
      b.posWrite = 64 ∧ b.lenAlloc = 64 ∧ b.posRead = 0 ∧
      rbusBuffer_Read b 64 = ReadResult.assertFailed b := by
  obtain ⟨b, e, p, r, l, _⟩ := write_some rbusBuffer_Create (List.replicate 64 7) 64
    create_inv.wf (by simp) (by decide) (by decide)
  have p2 : b.posWrite = 64 := by rw [p]; rfl
  have l2 : b.lenAlloc = 64 := by rw [l]; rfl
  have r2 : b.posRead = 0 := by rw [r]; rfl
  refine ⟨b, e, p2, l2, r2, ?_⟩
  unfold rbusBuffer_Read INT_MAX
  rw [if_neg (by omega), if_neg (by omega)]

/-- C14, the code at the failing input: after `rbusBuffer_WriteBytesTLV` of the
three bytes `01 02 03` into a fresh buffer, `rbusBuffer_ReadBytes` reports the
length 7 (`posWrite`, header included), leaves its allocation of 7 bytes
unwritten, and stores the record `0f 05 03 00 01 02 03` over the caller's
pointer variable. -/
theorem readBytes_reports_posWrite :
    ∃ b1 b2, rbusBuffer_WriteBytesTLV false sampleTypes rbusBuffer_Create [1, 2, 3] 3 = some b1 ∧
      rbusBuffer_ReadBytes b1 = ReadResult.ok b2
        { len := 7
          block := List.replicate 7 none
          pointer := [some 0x0f, some 0x05, some 3, some 0, some 1, some 2, some 3] } :=
  ⟨_, _, rfl, rfl⟩

/-- C20: in a reachable state with room for the record, for every host byte
order and every `len < 2^31` handed to `rbusBuffer_WriteStringTLV` or
`rbusBuffer_WriteBytesTLV` with an array of `len` bytes, the call returns,
`posWrite` advances by `4 + len mod 65536`, the length field holds the two
little-endian bytes of `len mod 65536`, the payload is the first
`len mod 65536` bytes of the array, and that is the whole array exactly when
`len ≤ 65535`. -/
theorem length_truncation (be : Bool) (ty : rbusValueType) (b : rbusBuffer) (s : List Nat)
    (len : Nat) (hb : Reachable b) (hs : s.length = len) (hlen : len < 2 ^ 31)
    (hroom : b.posWrite + 4 + len % 65536 < 2147483584) :
    (∃ b2, rbusBuffer_WriteStringTLV be ty b s len = some b2 ∧
      b2.posWrite = b.posWrite + (4 + len % 65536) ∧
      (b2.data.drop b.posWrite).take (4 + len % 65536) =
        (leBytes 2 ty.RBUS_STRING ++ [len % 65536 % 256, len % 65536 / 256]
          ++ s.take (len % 65536)).map some) ∧
    (∃ b2, rbusBuffer_WriteBytesTLV be ty b s len = some b2 ∧
      b2.posWrite = b.posWrite + (4 + len % 65536) ∧
      (b2.data.drop b.posWrite).take (4 + len % 65536) =
        (leBytes 2 ty.RBUS_BYTES ++ [len % 65536 % 256, len % 65536 / 256]
          ++ s.take (len % 65536)).map some) ∧
    (s.take (len % 65536) = s ↔ len ≤ 65535) := by
  have hinv := reachable_inv b hb
  have h16 : (2 : Nat) ^ 16 = 65536 := by norm_num
  have key : ∀ t, ∃ b2, rbusBuffer_WriteTypeLengthValue be b t len s = some b2 ∧
      b2.posWrite = b.posWrite + (4 + len % 65536) ∧
      (b2.data.drop b.posWrite).take (4 + len % 65536) =
        (leBytes 2 t ++ [len % 65536 % 256, len % 65536 / 256]
          ++ s.take (len % 65536)).map some := by
    intro t
    obtain ⟨b2, e, _, p, _, dd⟩ := tlv_some be b t len s hinv
      (by rw [hs]; exact Nat.mod_le _ _) (by rw [h16]; exact hroom)
    rw [h16] at p dd
    have hA : (b.data.take b.posWrite).length = b.posWrite := by
      rw [List.length_take, hinv.hlen]; exact Nat.min_eq_left hinv.hw
    rw [Nat.add_assoc] at dd
    obtain ⟨_, s2⟩ := take_split _ _ _ _ _ dd hA
    refine ⟨b2, e, by omega, ?_⟩
    rw [s2]
    have hl : leBytes 2 len = [len % 65536 % 256, len % 65536 / 256] := by
      simp only [leBytes]
      have e1 : len % 256 = len % 65536 % 256 := by omega
      have e2 : len / 256 % 256 = len % 65536 / 256 := by omega
      rw [e1, e2]
    rw [hl]
  refine ⟨key _, key _, ?_⟩
  constructor
  · intro h
    have hl := congrArg List.length h
    rw [List.length_take, hs] at hl
    omega
  · intro h
    rw [Nat.mod_eq_of_lt (by omega), ← hs, List.take_length]

/-- C20 at concrete inputs: a three-byte array on a fresh buffer, big-endian
host, and an array of 65537 bytes, of which one byte is the payload. -/
theorem length_truncation_witness :
    ((∃ b2, rbusBuffer_WriteStringTLV true sampleTypes rbusBuffer_Create [97, 98, 0] 3 = some b2 ∧
      b2.posWrite = rbusBuffer_Create.posWrite + (4 + 3 % 65536) ∧
      (b2.data.drop rbusBuffer_Create.posWrite).take (4 + 3 % 65536) =
        (leBytes 2 sampleTypes.RBUS_STRING ++ [3 % 65536 % 256, 3 % 65536 / 256]
          ++ [97, 98, 0].take (3 % 65536)).map some) ∧
    (∃ b2, rbusBuffer_WriteBytesTLV true sampleTypes rbusBuffer_Create [97, 98, 0] 3 = some b2 ∧
      b2.posWrite = rbusBuffer_Create.posWrite + (4 + 3 % 65536) ∧
      (b2.data.drop rbusBuffer_Create.posWrite).take (4 + 3 % 65536) =
        (leBytes 2 sampleTypes.RBUS_BYTES ++ [3 % 65536 % 256, 3 % 65536 / 256]
          ++ [97, 98, 0].take (3 % 65536)).map some) ∧
    ([97, 98, 0].take (3 % 65536) = [97, 98, 0] ↔ 3 ≤ 65535)) ∧
    ((List.replicate 65537 0).take (65537 % 65536) = List.replicate 65537 0 ↔ 65537 ≤ 65535) :=
  ⟨length_truncation true sampleTypes rbusBuffer_Create [97, 98, 0] 3 reachable_create rfl
    (by decide) (by decide),
   (length_truncation false sampleTypes rbusBuffer_Create (List.replicate 65537 0) 65537
    reachable_create (List.length_replicate _ _) (by decide) (by decide)).2.2⟩

theorem slice_of_take {α : Type} (l A B C : List α)
    (h : l.take (A.length + (B.length + C.length)) = A ++ (B ++ C)) :
    (l.drop A.length).take B.length = B := by
  obtain ⟨_, s2⟩ := take_split l A (B ++ C) A.length (B.length + C.length) h rfl
  have h1 : ((l.drop A.length).take (B.length + C.length)).take B.length
      = (l.drop A.length).take B.length := by
    rw [List.take_take, Nat.min_eq_left (by omega)]
  rw [← h1, s2, List.take_left' rfl]

/-- A record of at most 59 value bytes written to a fresh buffer: reads of two,
two and `w` bytes return the tag bytes, the length bytes and the value bytes,
and then everything written has been read. -/
theorem record_reads (be : Bool) (t w : Nat) (bs : List Nat) (hw : w ≤ 59)
    (hbs : bs.length = w) :
    ∃ b1 b2 b3 b4, rbusBuffer_WriteTypeLengthValue be rbusBuffer_Create t w bs = some b1 ∧
      rbusBuffer_Read b1 2 = ReadResult.ok b2 ((leBytes 2 t).map some) ∧
      rbusBuffer_Read b2 2 = ReadResult.ok b3 ((leBytes 2 w).map some) ∧
      rbusBuffer_Read b3 w = ReadResult.ok b4 (bs.map some) ∧
      b4.posRead = b4.posWrite := by
  have hm : w % 2 ^ 16 = w := Nat.mod_eq_of_lt (by omega)
  obtain ⟨b1, e, i1, p, r, dd⟩ := tlv_some be rbusBuffer_Create t w bs create_inv
    (by omega) (by rw [hm]; show 0 + 4 + w < _; omega)
  rw [hm] at p dd
  have p0 : rbusBuffer_Create.posWrite = 0 := rfl
  have r0 : rbusBuffer_Create.posRead = 0 := rfl
  rw [p0] at p dd
  rw [r0] at r
  have hle := i1.block_le
  have hmx := i1.hmax
  unfold BUFFER_BLOCK_SIZE at hle
  unfold INT_MAX at hmx
  have dd2 : b1.data.take (4 + w) =
      (leBytes 2 t).map some ++ ((leBytes 2 w).map some ++ bs.map some) := by
    have : (0 : Nat) + 4 + w = 4 + w := by omega
    rw [this] at dd
    rw [dd, ← hbs, List.take_length]
    simp
  have lt2 : ((leBytes 2 t).map some).length = 2 := by simp [leBytes_length]
  have lw2 : ((leBytes 2 w).map some).length = 2 := by simp [leBytes_length]
  have lbs : (bs.map some).length = w := by simp [hbs]
  -- the three slices
  have s1 : (b1.data.drop 0).take 2 = (leBytes 2 t).map some := by
    have h := slice_of_take b1.data [] ((leBytes 2 t).map some)
      ((leBytes 2 w).map some ++ bs.map some)
      (by simp only [List.length_nil, List.length_append, lt2, lw2, lbs, List.nil_append]
          rw [← dd2]; congr 1; omega)
    rw [lt2] at h
    exact h
  have s2 : (b1.data.drop 2).take 2 = (leBytes 2 w).map some := by
    have h := slice_of_take b1.data ((leBytes 2 t).map some) ((leBytes 2 w).map some)
      (bs.map some)
      (by rw [lt2, lw2, lbs, ← dd2]; congr 1; omega)
    rw [lt2, lw2] at h
    exact h
  have s3 : (b1.data.drop 4).take w = bs.map some := by
    have h := slice_of_take b1.data ((leBytes 2 t).map some ++ (leBytes 2 w).map some)
      (bs.map some) []
      (by simp only [List.length_append, lt2, lw2, lbs, List.length_nil, List.append_nil,
            List.append_assoc]
          rw [← dd2]; congr 1)
    simp only [List.length_append, lt2, lw2, lbs] at h
    exact h
  refine ⟨b1, { b1 with posRead := b1.posRead + 2 }, { b1 with posRead := b1.posRead + 2 + 2 },
    { b1 with posRead := b1.posRead + 2 + 2 + w }, e, ?_, ?_, ?_, ?_⟩
  · unfold rbusBuffer_Read INT_MAX
    rw [if_neg (by omega), if_pos (by omega), r, s1]
  · unfold rbusBuffer_Read INT_MAX
    simp only
    rw [if_neg (by omega), if_pos (by omega), r]
    simp only [Nat.zero_add]
    rw [s2]
  · unfold rbusBuffer_Read INT_MAX
    simp only
    rw [if_neg (by omega), if_pos (by omega), r]
    simp only [Nat.zero_add]
    rw [s3]
  · show b1.posRead + 2 + 2 + w = b1.posWrite
    omega

theorem decodes_record_of_payload {α : Type} (be : Bool) (t w : Nat) (bs : List Nat)
    (f : List Nat → α) (v : α) (hw : w ≤ 59) (hbs : bs.length = w) (ht : t < 2 ^ 16)
    (hf : f bs = v) :
    DecodesRecord be (rbusBuffer_WriteTypeLengthValue be rbusBuffer_Create t w bs)
      (fun b => readThen (rbusBuffer_Read b w) f) t w v := by
  obtain ⟨b1, b2, b3, b4, e1, e2, e3, e4, e5⟩ := record_reads be t w bs hw hbs
  refine ⟨b1, b2, b3, b4, e1, ?_, ?_, ?_, e5⟩
  · simp only [rbusBuffer_ReadUInt16, e2, readThen, initialised_map_some, Option.map_some',
      letoh16_objectValue, Nat.mod_eq_of_lt ht]
  · simp only [rbusBuffer_ReadUInt16, e3, readThen, initialised_map_some, Option.map_some',
      letoh16_objectValue]
    rw [Nat.mod_eq_of_lt (by omega)]
  · simp only [e4, readThen, initialised_map_some, Option.map_some', hf]

/-- C12: with type tags that fit in 16 bits, for each of the eight integer
types, every value `v` of the type and either host byte order: after the typed
writer put `v` into a fresh buffer, a first `rbusBuffer_ReadUInt16` returns the
type tag, a second one returns the size of the type, the matching typed reader
returns `v`, and then `posRead = posWrite`. -/
theorem typed_record_roundtrip (be : Bool) (ty : rbusValueType) (hty : TagsFit ty) :
    (∀ v : Int, -2 ^ 7 ≤ v → v < 2 ^ 7 →
      DecodesRecord be (rbusBuffer_WriteInt8TLV be ty rbusBuffer_Create v)
        (rbusBuffer_ReadInt8 be) ty.RBUS_INT8 1 v) ∧
    (∀ v : Nat, v < 2 ^ 8 →
      DecodesRecord be (rbusBuffer_WriteUInt8TLV be ty rbusBuffer_Create v)
        (rbusBuffer_ReadUInt8 be) ty.RBUS_UINT8 1 v) ∧
    (∀ v : Int, -2 ^ 15 ≤ v → v < 2 ^ 15 →
      DecodesRecord be (rbusBuffer_WriteInt16TLV be ty rbusBuffer_Create v)
        (rbusBuffer_ReadInt16 be) ty.RBUS_INT16 2 v) ∧
    (∀ v : Nat, v < 2 ^ 16 →
      DecodesRecord be (rbusBuffer_WriteUInt16TLV be ty rbusBuffer_Create v)
        (rbusBuffer_ReadUInt16 be) ty.RBUS_UINT16 2 v) ∧
    (∀ v : Int, -2 ^ 31 ≤ v → v < 2 ^ 31 →
      DecodesRecord be (rbusBuffer_WriteInt32TLV be ty rbusBuffer_Create v)
        (rbusBuffer_ReadInt32 be) ty.RBUS_INT32 4 v) ∧
    (∀ v : Nat, v < 2 ^ 32 →
      DecodesRecord be (rbusBuffer_WriteUInt32TLV be ty rbusBuffer_Create v)
        (rbusBuffer_ReadUInt32 be) ty.RBUS_UINT32 4 v) ∧
    (∀ v : Int, -2 ^ 63 ≤ v → v < 2 ^ 63 →
      DecodesRecord be (rbusBuffer_WriteInt64TLV be ty rbusBuffer_Create v)
        (rbusBuffer_ReadInt64 be) ty.RBUS_INT64 8 v) ∧
    (∀ v : Nat, v < 2 ^ 64 →
      DecodesRecord be (rbusBuffer_WriteUInt64TLV be ty rbusBuffer_Create v)
        (rbusBuffer_ReadUInt64 be) ty.RBUS_UINT64 8 v) := by
  obtain ⟨_, t1, t2, t3, t4, t5, t6, t7, t8, _, _⟩ := hty
  have m16 : ∀ n, objectBytes be 2 (n % 2 ^ 16) = objectBytes be 2 n := fun n => by
    have := objectBytes_mod be 2 n; norm_num at this ⊢; exact this
  have m32 : ∀ n, objectBytes be 4 (n % 2 ^ 32) = objectBytes be 4 n := fun n => by
    have := objectBytes_mod be 4 n; norm_num at this ⊢; exact this
  have m64 : ∀ n, objectBytes be 8 (n % 2 ^ 64) = objectBytes be 8 n := fun n => by
    have := objectBytes_mod be 8 n; norm_num at this ⊢; exact this
  have s8 : ∀ u, toSigned 1 (u % 2 ^ 8) = toSigned 1 u := fun u => toSigned_mod 1 u
  have s16 : ∀ u, toSigned 2 (u % 2 ^ 16) = toSigned 2 u := fun u => toSigned_mod 2 u
  have s32 : ∀ u, toSigned 4 (u % 2 ^ 32) = toSigned 4 u := fun u => toSigned_mod 4 u
  have s64 : ∀ u, toSigned 8 (u % 2 ^ 64) = toSigned 8 u := fun u => toSigned_mod 8 u
  have l16 : ∀ x, rbusLittleToHostInt16 be (x % 2 ^ 16) = rbusLittleToHostInt16 be x := fun x => by
    simp only [rbusLittleToHostInt16, le16toh, Nat.mod_mod]
  have l32 : ∀ x, rbusLittleToHostInt32 be (x % 2 ^ 32) = rbusLittleToHostInt32 be x := fun x => by
    simp only [rbusLittleToHostInt32, le32toh, Nat.mod_mod]
  have l64 : ∀ x, rbusLittleToHostInt64 be (x % 2 ^ 64) = rbusLittleToHostInt64 be x := fun x => by
    simp only [rbusLittleToHostInt64, le64toh, Nat.mod_mod]
  refine ⟨?_, ?_, ?_, ?_, ?_, ?_, ?_, ?_⟩
  · intro v h1 h2
    unfold rbusBuffer_WriteInt8TLV
    rw [objectBytes_one]
    refine decodes_record_of_payload be _ 1 _ _ v (by decide) rfl t1 ?_
    simp only [objectValue_one]
    have := s8 (toUnsigned 1 v)
    norm_num at this
    rw [this, toSigned_toUnsigned_1 v h1 h2]
  · intro v h
    unfold rbusBuffer_WriteUInt8TLV
    rw [objectBytes_one]
    refine decodes_record_of_payload be _ 1 _ _ v (by decide) rfl t2 ?_
    simp only [objectValue_one]
    omega
  · intro v h1 h2
    unfold rbusBuffer_WriteInt16TLV
    simp only [toUnsigned_toSigned_2]
    rw [m16, objectBytes_htole16]
    refine decodes_record_of_payload be _ 2 _ _ v (by decide) (leBytes_length _ _) t3 ?_
    simp only [toUnsigned_toSigned_2]
    rw [l16, letoh16_objectValue, s16, toSigned_toUnsigned_2 v h1 h2]
  · intro v h
    unfold rbusBuffer_WriteUInt16TLV
    simp only
    rw [objectBytes_htole16]
    refine decodes_record_of_payload be _ 2 _ _ v (by decide) (leBytes_length _ _) t4 ?_
    simp only
    rw [letoh16_objectValue, Nat.mod_mod, Nat.mod_eq_of_lt h]
  · intro v h1 h2
    unfold rbusBuffer_WriteInt32TLV
    simp only [toUnsigned_toSigned_4]
    rw [m32, objectBytes_htole32]
    refine decodes_record_of_payload be _ 4 _ _ v (by decide) (leBytes_length _ _) t5 ?_
    simp only [toUnsigned_toSigned_4]
    rw [l32, letoh32_objectValue, s32, toSigned_toUnsigned_4 v h1 h2]
  · intro v h
    unfold rbusBuffer_WriteUInt32TLV
    simp only
    rw [objectBytes_htole32]
    refine decodes_record_of_payload be _ 4 _ _ v (by decide) (leBytes_length _ _) t6 ?_
    simp only
    rw [letoh32_objectValue, Nat.mod_mod, Nat.mod_eq_of_lt h]
  · intro v h1 h2
    unfold rbusBuffer_WriteInt64TLV
    simp only [toUnsigned_toSigned_8]
    rw [m64, objectBytes_htole64]
    refine decodes_record_of_payload be _ 8 _ _ v (by decide) (leBytes_length _ _) t7 ?_
    simp only [toUnsigned_toSigned_8]
    rw [l64, letoh64_objectValue, s64, toSigned_toUnsigned_8 v h1 h2]
  · intro v h
    unfold rbusBuffer_WriteUInt64TLV
    simp only
    rw [objectBytes_htole64]
    refine decodes_record_of_payload be _ 8 _ _ v (by decide) (leBytes_length _ _) t8 ?_
    simp only
    rw [letoh64_objectValue, Nat.mod_mod, Nat.mod_eq_of_lt h]

theorem sampleTypes_fit : TagsFit sampleTypes := by
  unfold TagsFit sampleTypes
  decide

/-- C12 at concrete inputs: the smallest 32-bit signed integer on a big-endian
host and the value 255 as an 8-bit unsigned integer on a little-endian one. -/
theorem typed_record_roundtrip_witness :
    DecodesRecord true (rbusBuffer_WriteInt32TLV true sampleTypes rbusBuffer_Create (-2147483648))
        (rbusBuffer_ReadInt32 true) sampleTypes.RBUS_INT32 4 (-2147483648) ∧
      DecodesRecord false (rbusBuffer_WriteUInt8TLV false sampleTypes rbusBuffer_Create 255)
        (rbusBuffer_ReadUInt8 false) sampleTypes.RBUS_UINT8 1 255 :=
  ⟨(typed_record_roundtrip true sampleTypes sampleTypes_fit).2.2.2.2.1 (-2147483648)
      (by norm_num) (by norm_num),
   (typed_record_roundtrip false sampleTypes sampleTypes_fit).2.1 255 (by norm_num)⟩

/-- C18, counterexample: on a fresh buffer, writing `2^31 - 65` bytes and then one
more byte returns (the first write grows the capacity to `2^31 - 64`, which the
second fills exactly), while the single write of the same `2^31 - 64` bytes asks
for the capacity `2^31`, which does not fit in an `int`. -/
theorem split_write_returns_joined_overflows :
    Reachable rbusBuffer_Create ∧
      (∃ b1 b2,
        rbusBuffer_Write rbusBuffer_Create (List.replicate (INT_MAX - 64) 0) (INT_MAX - 64)
          = some b1 ∧
        rbusBuffer_Write b1 [0] 1 = some b2 ∧ b2.posWrite = INT_MAX - 63) ∧
      rbusBuffer_Write rbusBuffer_Create (List.replicate (INT_MAX - 64) 0 ++ [0]) (INT_MAX - 63)
        = none := by
  have p0 : rbusBuffer_Create.posWrite = 0 := rfl
  have l0 : rbusBuffer_Create.lenAlloc = 64 := rfl
  have hc : capacityAfter 64 (0 + (INT_MAX - 64)) = 2147483584 := by
    unfold capacityAfter INT_MAX BUFFER_BLOCK_SIZE
    norm_num
  refine ⟨reachable_create, ?_, ?_⟩
  · obtain ⟨b1, e1, q1, _, c1, _⟩ := write_some rbusBuffer_Create
      (List.replicate (INT_MAX - 64) 0) (INT_MAX - 64) create_inv.wf
      (by rw [List.length_replicate])
      (by rw [p0]; omega)
      (by rw [p0, l0, hc]; unfold INT_MAX; omega)
    have i1 := write_inv _ _ _ _ create_inv e1
    rw [p0] at q1
    rw [p0, l0, hc] at c1
    have hc2 : capacityAfter b1.lenAlloc (b1.posWrite + 1) = 2147483584 := by
      rw [c1, q1]
      unfold capacityAfter INT_MAX BUFFER_BLOCK_SIZE
      norm_num
    obtain ⟨b2, e2, q2, _⟩ := write_some b1 [0] 1 i1.wf (by simp)
      (by rw [q1]; unfold INT_MAX; omega) (by rw [hc2]; unfold INT_MAX; omega)
    refine ⟨b1, b2, e1, e2, ?_⟩
    rw [q2, q1]
    unfold INT_MAX
    omega
  · have h1 : ¬ INT_MAX < rbusBuffer_Create.posWrite + (INT_MAX - 63) := by
      rw [p0]; omega
    have h2 : ¬ (List.replicate (INT_MAX - 64) 0 ++ [0]).length < INT_MAX - 63 := by
      rw [List.length_append, List.length_replicate]
      unfold INT_MAX
      simp
    have h3 : rbusBuffer_Create.posWrite + (INT_MAX - 63) > rbusBuffer_Create.lenAlloc := by
      rw [p0, l0]; unfold INT_MAX; omega
    have h4 : INT_MAX < ((rbusBuffer_Create.posWrite + (INT_MAX - 63)) / BUFFER_BLOCK_SIZE + 1)
        * BUFFER_BLOCK_SIZE := by
      rw [p0]; unfold INT_MAX BUFFER_BLOCK_SIZE; omega
    unfold rbusBuffer_Write
    simp only [h1, h2, h3, h4, if_true, if_false]

/-- C18, amended: in every reachable state and for all byte sequences `x` and
`y` whose joined write fits in the current capacity or ends below `2^31 - 64`:
the write of `x` followed by the write of `y` and the single write of `x ++ y`
all return, and the two resulting buffers have the same `posWrite`, the same
`posRead` and the same bytes at offsets `[0, posWrite)`. -/
theorem write_concat (b : rbusBuffer) (x y : List Nat) (hb : Reachable b)
    (hroom : b.posWrite + x.length + y.length ≤ b.lenAlloc ∨
      b.posWrite + x.length + y.length < 2147483584) :
    ∃ b1 b2 b3, rbusBuffer_Write b x x.length = some b1 ∧
      rbusBuffer_Write b1 y y.length = some b2 ∧
      rbusBuffer_Write b (x ++ y) (x ++ y).length = some b3 ∧
      b2.posWrite = b3.posWrite ∧ b2.posRead = b3.posRead ∧
      b2.data.take b2.posWrite = b3.data.take b3.posWrite := by
  have hinv := reachable_inv b hb
  obtain ⟨f1, c1⟩ := capacity_fits b.lenAlloc (b.posWrite + x.length) hinv.hmax
    (by rcases hroom with h | h
        · exact Or.inl (by omega)
        · exact Or.inr (by omega))
  obtain ⟨b1, e1, p1, r1, l1, _, _, d1⟩ := write_some b x x.length hinv.wf (le_refl _) f1 c1
  have i1 := write_inv _ _ _ _ hinv e1
  have hge := (capacityAfter_ge b.lenAlloc (b.posWrite + x.length)).1
  obtain ⟨f2, c2⟩ := capacity_fits b1.lenAlloc (b1.posWrite + y.length) i1.hmax
    (by rcases hroom with h | h
        · exact Or.inl (by omega)
        · exact Or.inr (by omega))
  obtain ⟨b2, e2, p2, r2, _, _, _, d2⟩ := write_some b1 y y.length i1.wf (le_refl _) f2 c2
  obtain ⟨f3, c3⟩ := capacity_fits b.lenAlloc (b.posWrite + (x ++ y).length) hinv.hmax
    (by rw [List.length_append]
        rcases hroom with h | h
        · exact Or.inl (by omega)
        · exact Or.inr (by omega))
  obtain ⟨b3, e3, p3, r3, _, _, _, d3⟩ := write_some b (x ++ y) (x ++ y).length hinv.wf
    (le_refl _) f3 c3
  refine ⟨b1, b2, b3, e1, e2, e3, ?_, by omega, ?_⟩
  · rw [p2, p1, p3, List.length_append]; omega
  · rw [List.take_length] at d1 d2 d3
    rw [p2, d2, p1, d1, p3, d3, List.map_append, List.append_assoc]

/-- C18, amended, at a concrete input: `01 02` then `03` against `01 02 03` on
a fresh buffer. -/
theorem write_concat_witness :
    ∃ b1 b2 b3, rbusBuffer_Write rbusBuffer_Create [1, 2] [1, 2].length = some b1 ∧
      rbusBuffer_Write b1 [3] [3].length = some b2 ∧
      rbusBuffer_Write rbusBuffer_Create ([1, 2] ++ [3]) ([1, 2] ++ [3]).length = some b3 ∧
      b2.posWrite = b3.posWrite ∧ b2.posRead = b3.posRead ∧
      b2.data.take b2.posWrite = b3.data.take b3.posWrite :=
  write_concat rbusBuffer_Create [1, 2] [3] reachable_create (Or.inl (by decide))

/-- C15, the code at the failing input: the `double` 1.5 (bits
`3FF8000000000000`) written by `rbusBuffer_WriteDoubleTLV` into a fresh buffer on
a little-endian host leaves as value field `00 00 00 00 00 00 F0 3F`, the bytes
of 1.0, and `rbusBuffer_ReadDouble` on that field returns 1.0 (bits
`3FF0000000000000`); likewise the `float` 1.5 (bits `3FC00000`) leaves
`00 00 80 3F` and is read back as 1.0 (bits `3F800000`). -/
theorem float_roundtrip_truncates :
    (∃ b1 b2 hdr b3,
      rbusBuffer_WriteDoubleTLV false sampleTypes rbusBuffer_Create 0x3FF8000000000000
        = some b1 ∧
      (b1.data.drop 4).take 8
        = [some 0, some 0, some 0, some 0, some 0, some 0, some 0xF0, some 0x3F] ∧
      rbusBuffer_Read b1 4 = ReadResult.ok b2 hdr ∧
      rbusBuffer_ReadDouble false b2 = ReadResult.ok b3 (some 0x3FF0000000000000)) ∧
    (∃ b1 b2 hdr b3,
      rbusBuffer_WriteSingleTLV false sampleTypes rbusBuffer_Create 0x3FC00000 = some b1 ∧
      (b1.data.drop 4).take 4 = [some 0, some 0, some 0x80, some 0x3F] ∧
      rbusBuffer_Read b1 4 = ReadResult.ok b2 hdr ∧
      rbusBuffer_ReadSingle false b2 = ReadResult.ok b3 (some 0x3F800000)) :=
  ⟨⟨_, _, _, _, rfl, rfl, rfl, rfl⟩, ⟨_, _, _, _, rfl, rfl, rfl, rfl⟩⟩

theorem tokensFrom_append (t rest cur : List Char) (h : '.' ∉ t) :
    tokensFrom (t ++ rest) cur = tokensFrom rest (cur ++ t) := by
  induction t generalizing cur with
  | nil => simp
  | cons c cs ih =>
    have hc : c ≠ '.' := fun e => h (by rw [e]; exact List.mem_cons_self _ _)
    have hcs : '.' ∉ cs := fun e => h (List.mem_cons_of_mem _ e)
    show tokensFrom (c :: (cs ++ rest)) cur = _
    simp only [tokensFrom, hc, if_false]
    rw [ih _ hcs]
    simp

theorem tokens_dotted (ts : List (List Char)) (h : ∀ t ∈ ts, t ≠ [] ∧ '.' ∉ t) :
    tokens (dotted ts) = ts := by
  unfold tokens
  induction ts with
  | nil => rfl
  | cons t ts ih =>
    obtain ⟨hne, hdot⟩ := h t (List.mem_cons_self _ _)
    have hts : ∀ u ∈ ts, u ≠ [] ∧ '.' ∉ u := fun u hu => h u (List.mem_cons_of_mem _ hu)
    cases ts with
    | nil =>
      have := tokensFrom_append t [] [] hdot
      simp only [List.append_nil, List.nil_append] at this
      simp only [dotted, this, tokensFrom, hne, if_false]
    | cons t2 ts2 =>
      simp only [dotted]
      rw [tokensFrom_append t _ [] hdot]
      simp only [List.nil_append, tokensFrom, if_true, hne, if_false]
      rw [ih hts]

theorem tokensFrom_valid (s cur : List Char) (hcur : '.' ∉ cur) :
    ∀ t ∈ tokensFrom s cur, t ≠ [] ∧ '.' ∉ t := by
  induction s generalizing cur with
  | nil =>
    intro t ht
    simp only [tokensFrom] at ht
    split at ht
    · simp at ht
    · simp only [List.mem_singleton] at ht
      subst ht
      exact ⟨by assumption, hcur⟩
  | cons c cs ih =>
    intro t ht
    simp only [tokensFrom] at ht
    split at ht
    · split at ht
      · exact ih [] (by simp) t ht
      · simp only [List.mem_cons] at ht
        rcases ht with ht | ht
        · subst ht
          exact ⟨by assumption, hcur⟩
        · exact ih [] (by simp) t ht
    · refine ih (cur ++ [c]) ?_ t ht
      intro hm
      simp only [List.mem_append, List.mem_singleton] at hm
      rcases hm with hm | hm
      · exact hcur hm
      · have : c = '.' := hm.symm
        contradiction

theorem tokens_valid (s : List Char) : ∀ t ∈ tokens s, t ≠ [] ∧ '.' ∉ t :=
  tokensFrom_valid s [] (by simp)

theorem tokens_dotted_tokens (s : List Char) : tokens (dotted (tokens s)) = tokens s :=
  tokens_dotted _ (tokens_valid s)

theorem retrieveChain_ne (s nm fn : List Char) (ps : List (List Char)) (ty : rbusElementType)
    (ch sib : elementNode) (h : nm ≠ s) :
    retrieveChain (s :: ps) (elementNode.node nm fn ty ch sib) = retrieveChain (s :: ps) sib := by
  simp only [retrieveChain, findSibling, h, if_false]

theorem retrieveChain_eq (s fn : List Char) (ps : List (List Char)) (ty : rbusElementType)
    (ch sib : elementNode) :
    retrieveChain (s :: ps) (elementNode.node s fn ty ch sib)
      = if ps.isEmpty then elementNode.node s fn ty ch sib else retrieveChain ps ch := by
  simp only [retrieveChain, findSibling, if_true]

theorem retrieveChain_null (ps : List (List Char)) :
    retrieveChain ps elementNode.null = elementNode.null := by
  cases ps with
  | nil => rfl
  | cons s ps => simp only [retrieveChain, findSibling]

theorem isEmpty_false_of_ne {α : Type} (l : List α) (h : l ≠ []) : l.isEmpty = false := by
  cases l with
  | nil => exact absurd rfl h
  | cons _ _ => rfl

/-- What one sibling step of an insertion does, given what the steps below it do:
the full names stay as the data model requires; a rejected insertion leaves the
chain as it is; a returned node has the full name of the path and is what the
lookup of the path finds. -/
theorem insertSibling_spec (seg full : List Char) (rest pre : List (List Char))
    (type : rbusElementType) (descend : elementNode → elementNode × elementNode)
    (hfull : full = dotted (pre ++ [seg]))
    (hleaf : rest = [] → descend elementNode.null = (elementNode.null, elementNode.null))
    (hnull : rest ≠ [] → (descend elementNode.null).2 ≠ elementNode.null)
    (hdesc : rest ≠ [] → ∀ ch, WellNamed ch (pre ++ [seg]) →
      WellNamed (descend ch).1 (pre ++ [seg]) ∧
      ((descend ch).2 = elementNode.null → (descend ch).1 = ch) ∧
      ((descend ch).2 ≠ elementNode.null →
        fullNameOf (descend ch).2 = dotted (pre ++ seg :: rest) ∧
        retrieveChain rest (descend ch).1 = (descend ch).2)) :
    ∀ chain, WellNamed chain pre →
      WellNamed (insertSibling seg full rest.isEmpty type descend chain).1 pre ∧
      ((insertSibling seg full rest.isEmpty type descend chain).2 = elementNode.null →
        (insertSibling seg full rest.isEmpty type descend chain).1 = chain) ∧
      ((insertSibling seg full rest.isEmpty type descend chain).2 ≠ elementNode.null →
        fullNameOf (insertSibling seg full rest.isEmpty type descend chain).2
          = dotted (pre ++ seg :: rest) ∧
        retrieveChain (seg :: rest) (insertSibling seg full rest.isEmpty type descend chain).1
          = (insertSibling seg full rest.isEmpty type descend chain).2) := by
  intro chain
  induction chain with
  | null =>
    intro _
    by_cases hr : rest = []
    · subst hr
      have e : insertSibling seg full ([] : List (List Char)).isEmpty type descend
          elementNode.null
          = (elementNode.node seg full type elementNode.null elementNode.null,
             elementNode.node seg full type elementNode.null elementNode.null) := by
        simp only [insertSibling, hleaf rfl, List.isEmpty_nil, if_true]
      rw [e]
      refine ⟨⟨hfull, trivial, trivial⟩, fun h => by simp at h, fun _ => ⟨?_, ?_⟩⟩
      · simp only [fullNameOf, hfull]
      · simp only [retrieveChain_eq, List.isEmpty_nil, if_true]
    · obtain ⟨d1, _, d3⟩ := hdesc hr elementNode.null trivial
      have dn := hnull hr
      have e : insertSibling seg full rest.isEmpty type descend elementNode.null
          = (elementNode.node seg full rbusElementType.object (descend elementNode.null).1
              elementNode.null,
             (descend elementNode.null).2) := by
        simp only [insertSibling, isEmpty_false_of_ne _ hr, Bool.false_eq_true, if_false]
      rw [e]
      refine ⟨⟨hfull, d1, trivial⟩, fun h => absurd h dn, fun _ => ⟨(d3 dn).1, ?_⟩⟩
      simp only [retrieveChain_eq, isEmpty_false_of_ne _ hr, Bool.false_eq_true, if_false]
      exact (d3 dn).2
  | node nm fn ty ch sib _ ihsib =>
    intro hw
    obtain ⟨w1, w2, w3⟩ := hw
    by_cases hn : nm = seg
    · subst hn
      by_cases hr : rest = []
      · subst hr
        have e : insertSibling nm full ([] : List (List Char)).isEmpty type descend
            (elementNode.node nm fn ty ch sib)
            = (elementNode.node nm fn ty ch sib, elementNode.node nm fn ty ch sib) := by
          simp only [insertSibling, List.isEmpty_nil, if_true]
        rw [e]
        refine ⟨⟨w1, w2, w3⟩, fun _ => rfl, fun _ => ⟨?_, ?_⟩⟩
        · simp only [fullNameOf, w1]
        · simp only [retrieveChain_eq, List.isEmpty_nil, if_true]
      · cases hc : ty.isContainer
        · have e : insertSibling nm full rest.isEmpty type descend
              (elementNode.node nm fn ty ch sib)
              = (elementNode.node nm fn ty ch sib, elementNode.null) := by
            simp only [insertSibling, isEmpty_false_of_ne _ hr, hc, Bool.false_eq_true,
              if_false, if_true]
          rw [e]
          exact ⟨⟨w1, w2, w3⟩, fun _ => rfl, fun h => absurd rfl h⟩
        · obtain ⟨d1, d2, d3⟩ := hdesc hr ch w2
          have e : insertSibling nm full rest.isEmpty type descend
              (elementNode.node nm fn ty ch sib)
              = (elementNode.node nm fn ty (descend ch).1 sib, (descend ch).2) := by
            simp only [insertSibling, isEmpty_false_of_ne _ hr, hc, Bool.false_eq_true,
              if_false, if_true]
          rw [e]
          refine ⟨⟨w1, d1, w3⟩, fun h => by rw [d2 h], fun h => ⟨(d3 h).1, ?_⟩⟩
          simp only [retrieveChain_eq, isEmpty_false_of_ne _ hr, Bool.false_eq_true, if_false]
          exact (d3 h).2
    · obtain ⟨r1, r2, r3⟩ := ihsib w3
      have e : insertSibling seg full rest.isEmpty type descend
          (elementNode.node nm fn ty ch sib)
          = (elementNode.node nm fn ty ch
              (insertSibling seg full rest.isEmpty type descend sib).1,
             (insertSibling seg full rest.isEmpty type descend sib).2) := by
        simp only [insertSibling, hn, if_false]
      rw [e]
      refine ⟨⟨w1, w2, r1⟩, fun h => by rw [r2 h], fun h => ⟨(r3 h).1, ?_⟩⟩
      rw [retrieveChain_ne _ _ _ _ _ _ _ hn]
      exact (r3 h).2

theorem insertChain_null_ne (type : rbusElementType) (segs : List (List Char))
    (hne : segs ≠ []) :
    ∀ pre, (insertChain type segs pre elementNode.null).2 ≠ elementNode.null := by
  induction segs with
  | nil => exact absurd rfl hne
  | cons seg rest ih =>
    intro pre
    by_cases hr : rest = []
    · subst hr
      simp [insertChain, insertSibling]
    · have := ih hr (pre ++ [seg])
      simp only [insertChain, insertSibling, isEmpty_false_of_ne _ hr, Bool.false_eq_true,
        if_false]
      exact this

theorem insertChain_spec (type : rbusElementType) (segs : List (List Char)) :
    ∀ pre chain, WellNamed chain pre →
      WellNamed (insertChain type segs pre chain).1 pre ∧
      ((insertChain type segs pre chain).2 = elementNode.null →
        (insertChain type segs pre chain).1 = chain) ∧
      ((insertChain type segs pre chain).2 ≠ elementNode.null →
        fullNameOf (insertChain type segs pre chain).2 = dotted (pre ++ segs) ∧
        retrieveChain segs (insertChain type segs pre chain).1
          = (insertChain type segs pre chain).2) := by
  induction segs with
  | nil =>
    intro pre chain hw
    exact ⟨hw, fun _ => rfl, fun h => absurd rfl h⟩
  | cons seg rest ih =>
    intro pre chain hw
    simp only [insertChain]
    refine insertSibling_spec seg _ rest pre type _ rfl ?_ ?_ ?_ chain hw
    · intro hr
      subst hr
      rfl
    · intro hr
      exact insertChain_null_ne type rest hr (pre ++ [seg])
    · intro _ ch hch
      have := ih (pre ++ [seg]) ch hch
      simpa [List.append_assoc] using this

theorem passable_null (segs : List (List Char)) : Passable segs elementNode.null := by
  intro q r _ _
  rw [retrieveChain_null]
  rfl

theorem passable_sibling (seg nm fn : List Char) (rest : List (List Char))
    (ty : rbusElementType) (ch sib : elementNode) (hn : nm ≠ seg)
    (h : Passable (seg :: rest) (elementNode.node nm fn ty ch sib)) :
    Passable (seg :: rest) sib := by
  intro q r hq hr
  cases q with
  | nil => rfl
  | cons s qs =>
    have hs : seg = s := by
      simp only [List.cons_append, List.cons.injEq] at hq
      exact hq.1
    subst hs
    have := h (seg :: qs) r hq hr
    rw [retrieveChain_ne _ _ _ _ _ _ _ hn] at this
    exact this

theorem passable_child (seg fn : List Char) (rest : List (List Char))
    (ty : rbusElementType) (ch sib : elementNode)
    (h : Passable (seg :: rest) (elementNode.node seg fn ty ch sib)) :
    Passable rest ch := by
  intro q r hq hr
  cases q with
  | nil => rfl
  | cons s qs =>
    have := h (seg :: s :: qs) r (by rw [hq]; rfl) hr
    rw [retrieveChain_eq] at this
    simpa using this

theorem passable_container (seg fn : List Char) (rest : List (List Char))
    (ty : rbusElementType) (ch sib : elementNode) (hr : rest ≠ [])
    (h : Passable (seg :: rest) (elementNode.node seg fn ty ch sib)) :
    ty.isContainer = true := by
  have := h [seg] rest rfl hr
  rw [retrieveChain_eq] at this
  simpa [blocksDescent] using this

theorem insertSibling_returns (seg full : List Char) (rest : List (List Char))
    (type : rbusElementType) (descend : elementNode → elementNode × elementNode)
    (hdesc : rest ≠ [] → ∀ ch, Passable rest ch → (descend ch).2 ≠ elementNode.null) :
    ∀ chain, Passable (seg :: rest) chain →
      (insertSibling seg full rest.isEmpty type descend chain).2 ≠ elementNode.null := by
  intro chain
  induction chain with
  | null =>
    intro _
    by_cases hr : rest = []
    · subst hr
      simp [insertSibling]
    · simp only [insertSibling, isEmpty_false_of_ne _ hr, Bool.false_eq_true, if_false]
      exact hdesc hr elementNode.null (passable_null rest)
  | node nm fn ty ch sib _ ihsib =>
    intro hp
    by_cases hn : nm = seg
    · subst hn
      by_cases hr : rest = []
      · subst hr
        simp [insertSibling]
      · have hc := passable_container nm fn rest ty ch sib hr hp
        simp only [insertSibling, isEmpty_false_of_ne _ hr, hc, Bool.false_eq_true, if_false,
          if_true]
        exact hdesc hr ch (passable_child nm fn rest ty ch sib hp)
    · simp only [insertSibling, hn, if_false]
      exact ihsib (passable_sibling seg nm fn rest ty ch sib hn hp)

theorem insertChain_returns (type : rbusElementType) (segs : List (List Char))
    (hne : segs ≠ []) :
    ∀ pre chain, Passable segs chain →
      (insertChain type segs pre chain).2 ≠ elementNode.null := by
  induction segs with
  | nil => exact absurd rfl hne
  | cons seg rest ih =>
    intro pre chain hp
    simp only [insertChain]
    exact insertSibling_returns seg _ rest type _
      (fun hr ch hch => ih hr (pre ++ [seg]) ch hch) chain hp

theorem not_initialPart_tail (s : List Char) (ps rest : List (List Char))
    (h : ¬ InitialPart (s :: ps) (s :: rest)) : ¬ InitialPart ps rest := by
  rintro ⟨r, hr⟩
  exact h ⟨r, by rw [hr]; rfl⟩

theorem isEmpty_false_of_not_initialPart (s : List Char) (ps rest : List (List Char))
    (h : ¬ InitialPart (s :: ps) (s :: rest)) : ps.isEmpty = false := by
  cases ps with
  | nil => exact absurd ⟨rest, rfl⟩ h
  | cons _ _ => rfl

theorem insertSibling_frame (seg full : List Char) (rest : List (List Char))
    (type : rbusElementType) (descend : elementNode → elementNode × elementNode)
    (hdesc : ∀ ps ch, retrieveChain ps ch = elementNode.null → ¬ InitialPart ps rest →
      retrieveChain ps (descend ch).1 = elementNode.null) :
    ∀ chain p, retrieveChain p chain = elementNode.null → ¬ InitialPart p (seg :: rest) →
      retrieveChain p (insertSibling seg full rest.isEmpty type descend chain).1
        = elementNode.null := by
  intro chain
  induction chain with
  | null =>
    intro p _ hp
    cases p with
    | nil => rfl
    | cons s ps =>
      have e : (insertSibling seg full rest.isEmpty type descend elementNode.null).1
          = elementNode.node seg full (if rest.isEmpty then type else rbusElementType.object)
              (descend elementNode.null).1 elementNode.null := by
        simp only [insertSibling]
      rw [e]
      by_cases hs : seg = s
      · subst hs
        rw [retrieveChain_eq, isEmpty_false_of_not_initialPart _ _ _ hp]
        simp only [Bool.false_eq_true, if_false]
        exact hdesc ps elementNode.null (retrieveChain_null ps) (not_initialPart_tail _ _ _ hp)
      · rw [retrieveChain_ne _ _ _ _ _ _ _ hs, retrieveChain_null]
  | node nm fn ty ch sib _ ihsib =>
    intro p hold hp
    cases p with
    | nil => rfl
    | cons s ps =>
      by_cases hn : nm = seg
      · subst hn
        by_cases hl : rest.isEmpty = true ∨ ty.isContainer = false
        · have e : (insertSibling nm full rest.isEmpty type descend
              (elementNode.node nm fn ty ch sib)).1 = elementNode.node nm fn ty ch sib := by
            rcases hl with hl | hl
            · simp only [insertSibling, hl, if_true]
            · cases hi : rest.isEmpty <;>
                simp only [insertSibling, hl, if_true, if_false, Bool.false_eq_true]
          rw [e]
          exact hold
        · have hl1 : rest.isEmpty = false := by
            cases hi : rest.isEmpty
            · rfl
            · exact absurd (Or.inl hi) hl
          have hl2 : ty.isContainer = true := by
            cases hi : ty.isContainer
            · exact absurd (Or.inr hi) hl
            · rfl
          have e : (insertSibling nm full rest.isEmpty type descend
              (elementNode.node nm fn ty ch sib)).1
              = elementNode.node nm fn ty (descend ch).1 sib := by
            simp only [insertSibling, hl1, hl2, if_true, if_false, Bool.false_eq_true]
          rw [e]
          by_cases hs : nm = s
          · subst hs
            have hie := isEmpty_false_of_not_initialPart _ _ _ hp
            rw [retrieveChain_eq, hie] at hold ⊢
            simp only [Bool.false_eq_true, if_false] at hold ⊢
            exact hdesc ps ch hold (not_initialPart_tail _ _ _ hp)
          · rw [retrieveChain_ne _ _ _ _ _ _ _ hs] at hold ⊢
            exact hold
      · have e : (insertSibling seg full rest.isEmpty type descend
            (elementNode.node nm fn ty ch sib)).1
            = elementNode.node nm fn ty ch
                (insertSibling seg full rest.isEmpty type descend sib).1 := by
          simp only [insertSibling, hn, if_false]
        rw [e]
        by_cases hs : nm = s
        · subst hs
          rw [retrieveChain_eq] at hold ⊢
          cases hps : ps.isEmpty
          · rw [hps] at hold
            simpa using hold
          · rw [hps] at hold
            simp at hold
        · rw [retrieveChain_ne _ _ _ _ _ _ _ hs] at hold ⊢
          exact ihsib (s :: ps) hold hp

theorem insertChain_frame (type : rbusElementType) (segs : List (List Char)) :
    ∀ pre chain p, retrieveChain p chain = elementNode.null → ¬ InitialPart p segs →
      retrieveChain p (insertChain type segs pre chain).1 = elementNode.null := by
  induction segs with
  | nil =>
    intro pre chain p h _
    exact h
  | cons seg rest ih =>
    intro pre chain p h hp
    simp only [insertChain]
    exact insertSibling_frame seg _ rest type _
      (fun ps ch h1 h2 => ih (pre ++ [seg]) ch ps h1 h2) chain p h hp

theorem insertElement_frame (root : elementNode) (elem : rbusDataElement) (p : List Char)
    (h : retrieveElement root p = elementNode.null)
    (hp : ¬ InitialPart (tokens p) (tokens elem.name)) :
    retrieveElement (insertElement root elem).1 p = elementNode.null := by
  cases root with
  | null => rfl
  | node nm fn ty ch sib =>
    simp only [insertElement, retrieveElement] at h ⊢
    exact insertChain_frame elem.type (tokens elem.name) [] ch (tokens p) h hp

theorem insertAll_frame (es : List rbusDataElement) (p : List Char) :
    ∀ t, retrieveElement t p = elementNode.null →
      (∀ e ∈ es, ¬ InitialPart (tokens p) (tokens e.name)) →
      retrieveElement (insertAll t es) p = elementNode.null := by
  induction es with
  | nil =>
    intro t h _
    exact h
  | cons e es ih =>
    intro t h hall
    simp only [insertAll]
    exact ih _ (insertElement_frame t e p h (hall e (List.mem_cons_self _ _)))
      (fun e2 he2 => hall e2 (List.mem_cons_of_mem _ he2))

theorem passable_of_paths (segs : List (List Char)) (ch : elementNode)
    (hv : ∀ t ∈ segs, t ≠ [] ∧ '.' ∉ t)
    (h : ∀ p r, segs = tokens p ++ r → r ≠ [] → blocksDescent (retrieveChain (tokens p) ch) = false) :
    Passable segs ch := by
  intro q r hq hr
  have hqv : ∀ t ∈ q, t ≠ [] ∧ '.' ∉ t := fun t ht => hv t (by rw [hq]; exact List.mem_append_left _ ht)
  have e := tokens_dotted q hqv
  have := h (dotted q) r (by rw [e]; exact hq) hr
  rw [e] at this
  exact this

/-- C16: for every tree with a root whose full names are as the data model
requires, and every element: when `insertElement` returns a node,
`retrieveElement` on the tree afterwards with the full name of that node returns
that same node; when it returns none the tree is as before; it does return a
node when the path has a segment and no node on the way to the last segment
is a non-container; and the full names are still as the data model requires.
A path that was not found before and is neither the inserted path nor the path
of a container above it is still not found; hence in a tree built from a lone
root by insertions, `retrieveElement` returns the not-found result for every
path at which no insertion put a node. -/
theorem path_roundtrip (root : elementNode) (elem : rbusDataElement)
    (hroot : WellNamedRoot root) :
    ((insertElement root elem).2 ≠ elementNode.null →
      retrieveElement (insertElement root elem).1 (fullNameOf (insertElement root elem).2)
        = (insertElement root elem).2) ∧
    ((insertElement root elem).2 = elementNode.null → (insertElement root elem).1 = root) ∧
    (tokens elem.name ≠ [] →
      (∀ p r, tokens elem.name = tokens p ++ r → r ≠ [] →
        blocksDescent (retrieveElement root p) = false) →
      (insertElement root elem).2 ≠ elementNode.null) ∧
    WellNamedRoot (insertElement root elem).1 ∧
    (∀ p, retrieveElement root p = elementNode.null →
      ¬ InitialPart (tokens p) (tokens elem.name) →
      retrieveElement (insertElement root elem).1 p = elementNode.null) ∧
    (∀ rootName es p, (∀ e ∈ es, ¬ InitialPart (tokens p) (tokens e.name)) →
      retrieveElement (insertAll (emptyRoot rootName) es) p = elementNode.null) := by
  cases root with
  | null => exact absurd hroot (by simp [WellNamedRoot])
  | node nm fn ty ch sib =>
    obtain ⟨s1, s2, s3⟩ := insertChain_spec elem.type (tokens elem.name) [] ch hroot
    refine ⟨?_, ?_, ?_, s1, ?_, ?_⟩
    · intro h
      obtain ⟨f1, f2⟩ := s3 h
      simp only [insertElement, retrieveElement]
      rw [f1, List.nil_append, tokens_dotted_tokens]
      exact f2
    · intro h
      simp only [insertElement]
      rw [s2 h]
    · intro hne hpass
      refine insertChain_returns elem.type (tokens elem.name) hne [] ch ?_
      exact passable_of_paths _ ch (tokens_valid elem.name) hpass
    · intro p h hp
      exact insertElement_frame _ elem p h hp
    · intro rootName es p hall
      refine insertAll_frame es p (emptyRoot rootName) ?_ hall
      simp only [emptyRoot, retrieveElement, retrieveChain_null]

/-- C16 at concrete inputs: the path `A.B` inserted into a tree that holds only
the root `r` is returned and found again, and `A.C` is not found; the path `A.B`
inserted into a tree in which `A` is a parameter is rejected and the tree is as
before. -/
theorem path_roundtrip_witness :
    ((insertElement (emptyRoot ['r'])
        { name := ['A', '.', 'B'], type := rbusElementType.parameter }).2 ≠ elementNode.null ∧
      retrieveElement
          (insertElement (emptyRoot ['r'])
            { name := ['A', '.', 'B'], type := rbusElementType.parameter }).1
          (fullNameOf
            (insertElement (emptyRoot ['r'])
              { name := ['A', '.', 'B'], type := rbusElementType.parameter }).2)
        = (insertElement (emptyRoot ['r'])
            { name := ['A', '.', 'B'], type := rbusElementType.parameter }).2 ∧
      retrieveElement
          (insertElement (emptyRoot ['r'])
            { name := ['A', '.', 'B'], type := rbusElementType.parameter }).1
          ['A', '.', 'C'] = elementNode.null) ∧
    (insertElement
        (elementNode.node ['r'] ['r'] rbusElementType.object
          (elementNode.node ['A'] ['A'] rbusElementType.parameter elementNode.null
            elementNode.null) elementNode.null)
        { name := ['A', '.', 'B'], type := rbusElementType.parameter }).1
      = elementNode.node ['r'] ['r'] rbusElementType.object
          (elementNode.node ['A'] ['A'] rbusElementType.parameter elementNode.null
            elementNode.null) elementNode.null :=
  ⟨⟨(path_roundtrip (emptyRoot ['r'])
        { name := ['A', '.', 'B'], type := rbusElementType.parameter }
        (by simp [emptyRoot, WellNamedRoot, WellNamed])).2.2.1 (by decide)
        (by intro p r _ _; simp [emptyRoot, retrieveElement, retrieveChain_null, blocksDescent]),
     (path_roundtrip (emptyRoot ['r'])
        { name := ['A', '.', 'B'], type := rbusElementType.parameter }
        (by simp [emptyRoot, WellNamedRoot, WellNamed])).1 (by decide),
     (path_roundtrip (emptyRoot ['r'])
        { name := ['A', '.', 'B'], type := rbusElementType.parameter }
        (by simp [emptyRoot, WellNamedRoot, WellNamed])).2.2.2.2.1 ['A', '.', 'C'] rfl
        (by rintro ⟨r, hr⟩; revert hr; simp [tokens, tokensFrom])⟩,
   (path_roundtrip
      (elementNode.node ['r'] ['r'] rbusElementType.object
        (elementNode.node ['A'] ['A'] rbusElementType.parameter elementNode.null
          elementNode.null) elementNode.null)
      { name := ['A', '.', 'B'], type := rbusElementType.parameter }
      (by simp [WellNamedRoot, WellNamed, dotted])).2.1 (by decide)⟩

end Rbus
